import Mathlib

/-!
Verification of the DINO container library (rpmtoys repository) against its
natural-language specification.  Each Python function that a claim touches is
shallowly embedded as an executable Lean definition; bytes are `Nat` values
below 256, byte strings are `List Nat`, machine integers are `Nat` with
explicit `% 2 ^ w` where the source wraps, and fallible operations return
`Option` / `Except` (a `none` / `.error` models a raised Python exception).
-/

namespace Dino

/-! ## dino/varint.py — variable-length integer encoding

`VARINT_NBITS = 8 * sizeof(c_ulonglong)` is 64 on every supported platform,
so `VARINT_MAXLEN = 64 // 7 + 1 = 10`, `VARINT_MAXVAL = 2^64 - 1`, and
`VARINT_MS7B_MASK = 127 << 57`. -/

def VARINT_NBITS : Nat := 64

def VARINT_MAXLEN : Nat := VARINT_NBITS / 7 + 1

def VARINT_MAXVAL : Nat := 2 ^ 64 - 1

def VARINT_MS7B_MASK : Nat := 127 <<< (VARINT_NBITS - 7)

/-- The `while val:` loop of `varint_encode`, building the leading
continuation bytes.  One iteration with `val = u + 1` does
`val -= 1; varint[pos] = 128 | (val & 127); val = val >> 7`,
i.e. prepends `128 ||| (u &&& 127)` and recurses on `u >>> 7`. -/
def varint_encode_aux : Nat → List Nat → List Nat
  | 0, acc => acc
  | u + 1, acc => varint_encode_aux (u >>> 7) ((128 ||| (u &&& 127)) :: acc)
decreasing_by
  simp only [Nat.shiftRight_eq_div_pow]
  exact Nat.lt_succ_of_le (Nat.div_le_self _ _)

/-- `varint_encode(val)`: coerce to `uintmax` (`% 2^64`), write the low
7 bits as the final byte, then prepend continuation bytes. -/
def varint_encode (val : Nat) : List Nat :=
  let v := val % 2 ^ 64
  varint_encode_aux (v >>> 7) [v &&& 127]

/-- The `while (b & 128):` loop of `varint_decode`.  State: `b` is the byte
read last, `val` the accumulated value, `n` the number of bytes consumed,
`rest` the not-yet-consumed bytes.  A raised `ValueError` ("varint overflow")
or `IndexError` (reading past the end) is `none`. -/
def varint_decode_go : Nat → Nat → Nat → List Nat → Option (Nat × Nat)
  | b, val, n, rest =>
    if b &&& 128 = 0 then some (val, n)
    else if val &&& VARINT_MS7B_MASK ≠ 0 then none
    else
      match rest with
      | [] => none
      | b' :: rest' => varint_decode_go b' ((val + 1) <<< 7 + (b' &&& 127)) (n + 1) rest'

/-- `varint_decode(varint)`: decode a byte sequence, returning
`(val, nbytes)`; `varint[0]` on an empty input raises (`none`). -/
def varint_decode : List Nat → Option (Nat × Nat)
  | [] => none
  | b :: rest => varint_decode_go b (b &&& 127) 1 rest

/-- One step of the decoder's value accumulator:
`val = ((val + 1) << 7) + (b & 127)`. -/
def decodeStep (v c : Nat) : Nat := (v + 1) <<< 7 + (c &&& 127)

/-- Decoder value accumulated over a byte list. -/
def decodeFold (v : Nat) (l : List Nat) : Nat := l.foldl decodeStep v

/-! ### Bit-twiddling helper lemmas -/

theorem and_two_pow_eq_zero_of_lt {x n : Nat} (h : x < 2 ^ n) : x &&& 2 ^ n = 0 := by
  apply Nat.eq_of_testBit_eq
  intro i
  simp only [Nat.testBit_and, Nat.zero_testBit, Nat.testBit_two_pow]
  rcases eq_or_ne n i with rfl | hne
  · simp [Nat.testBit_lt_two_pow h]
  · simp [hne]

theorem and_mask_eq_of_lt {x n : Nat} (h : x < 2 ^ n) : x &&& (2 ^ n - 1) = x := by
  rw [Nat.and_pow_two_sub_one_eq_mod]
  exact Nat.mod_eq_of_lt h

theorem or_two_pow_and_two_pow {x n : Nat} : (2 ^ n ||| x) &&& 2 ^ n ≠ 0 := by
  intro h
  have h7 : ((2 ^ n ||| x) &&& 2 ^ n).testBit n = false := by rw [h]; simp
  simp [Nat.testBit_and, Nat.testBit_or, Nat.testBit_two_pow] at h7

theorem or_two_pow_and_mask {x n : Nat} (h : x < 2 ^ n) :
    (2 ^ n ||| x) &&& (2 ^ n - 1) = x := by
  apply Nat.eq_of_testBit_eq
  intro i
  simp only [Nat.testBit_and, Nat.testBit_or]
  rcases lt_or_le i n with hi | hi
  · have hm : (2 ^ n - 1).testBit i = true := by
      rw [Nat.testBit_two_pow_sub_one]
      simp [hi]
    have hp : (2 ^ n).testBit i = false := by
      rw [Nat.testBit_two_pow]
      simp [Nat.ne_of_gt hi]
    simp [hm, hp]
  · have hm : (2 ^ n - 1).testBit i = false := by
      rw [Nat.testBit_two_pow_sub_one]
      simp [Nat.not_lt.mpr hi]
    have hx : x.testBit i = false :=
      Nat.testBit_lt_two_pow (lt_of_lt_of_le h (Nat.pow_le_pow_right (by norm_num) hi))
    simp [hm, hx]

theorem mask_check_of_lt {v : Nat} (h : v < 2 ^ 57) : v &&& VARINT_MS7B_MASK = 0 := by
  apply Nat.eq_of_testBit_eq
  intro i
  have hmask : VARINT_MS7B_MASK = 127 <<< 57 := rfl
  simp only [hmask, Nat.testBit_and, Nat.testBit_shiftLeft, Nat.zero_testBit]
  rcases lt_or_le i 57 with hi | hi
  · simp [Nat.not_le.mpr hi]
  · have hv : v.testBit i = false :=
      Nat.testBit_lt_two_pow (lt_of_lt_of_le h (Nat.pow_le_pow_right (by norm_num) hi))
    simp [hv]

/-! ### Structure of the encoder output -/

theorem shiftRight7_lt_succ (u : Nat) : u >>> 7 < u + 1 := by
  simp only [Nat.shiftRight_eq_div_pow]
  exact Nat.lt_succ_of_le (Nat.div_le_self _ _)

theorem varint_encode_aux_append (u : Nat) :
    ∀ acc, varint_encode_aux u acc = varint_encode_aux u [] ++ acc := by
  induction u using Nat.strong_induction_on with
  | _ u ih =>
    intro acc
    match u with
    | 0 => simp [varint_encode_aux]
    | u' + 1 =>
      rw [varint_encode_aux, varint_encode_aux,
        ih (u' >>> 7) (shiftRight7_lt_succ u'), ih (u' >>> 7) (shiftRight7_lt_succ u')
          ((128 ||| (u' &&& 127)) :: [])]
      simp

theorem varint_encode_aux_high (u : Nat) :
    ∀ c ∈ varint_encode_aux u [], c &&& 128 ≠ 0 := by
  induction u using Nat.strong_induction_on with
  | _ u ih =>
    match u with
    | 0 => simp [varint_encode_aux]
    | u' + 1 =>
      intro c hc
      rw [varint_encode_aux, varint_encode_aux_append] at hc
      rcases List.mem_append.mp hc with h | h
      · exact ih (u' >>> 7) (shiftRight7_lt_succ u') c h
      · have hc' : c = 128 ||| (u' &&& 127) := by simpa using h
        subst hc'
        have : ((2 : Nat) ^ 7 ||| (u' &&& 127)) &&& 2 ^ 7 ≠ 0 := or_two_pow_and_two_pow
        simpa using this

/-! ### Decoder accumulator facts -/

theorem le_decodeStep (v c : Nat) : v ≤ decodeStep v c := by
  simp only [decodeStep, Nat.shiftLeft_eq]
  omega

theorem le_decodeFold (l : List Nat) : ∀ v, v ≤ decodeFold v l := by
  induction l with
  | nil => intro v; simp [decodeFold]
  | cons c l ih =>
    intro v
    have h1 : v ≤ decodeStep v c := le_decodeStep v c
    have h2 : decodeStep v c ≤ decodeFold (decodeStep v c) l := ih _
    simpa [decodeFold] using le_trans h1 h2

theorem decodeFold_cons (v c : Nat) (l : List Nat) :
    decodeFold v (c :: l) = decodeFold (decodeStep v c) l := rfl

theorem decodeFold_append (v : Nat) (l₁ l₂ : List Nat) :
    decodeFold v (l₁ ++ l₂) = decodeFold (decodeFold v l₁) l₂ := by
  simp [decodeFold, List.foldl_append]

/-- Running the decoder loop over high-bit bytes `l` followed by a final
low byte: it consumes exactly `l.length + 1` more bytes and accumulates
`decodeFold val (l ++ [low])`, provided every overflow check passes. -/
theorem varint_decode_go_spec (l : List Nat) :
    ∀ b val n low rest, b &&& 128 ≠ 0 → (∀ c ∈ l, c &&& 128 ≠ 0) →
    low &&& 128 = 0 → decodeFold val l < 2 ^ 57 →
    varint_decode_go b val n (l ++ low :: rest) =
      some (decodeFold val (l ++ [low]), n + l.length + 1) := by
  induction l with
  | nil =>
    intro b val n low rest hb _ hlow hbound
    rw [varint_decode_go.eq_def]
    simp only [hb, if_false, List.nil_append]
    have hchk : val &&& VARINT_MS7B_MASK = 0 :=
      mask_check_of_lt (by simpa [decodeFold] using hbound)
    simp only [hchk, ne_eq, not_true_eq_false, if_neg, if_false]
    rw [varint_decode_go.eq_def]
    simp [hlow, decodeFold, decodeStep]
  | cons c l ih =>
    intro b val n low rest hb hhigh hlow hbound
    rw [varint_decode_go.eq_def]
    simp only [hb, if_false, List.cons_append]
    have hval : val ≤ decodeFold val (c :: l) := le_decodeFold _ _
    have hchk : val &&& VARINT_MS7B_MASK = 0 :=
      mask_check_of_lt (lt_of_le_of_lt hval hbound)
    simp only [hchk, ne_eq, not_true_eq_false, if_neg, if_false]
    have := ih c (decodeStep val c) (n + 1) low rest
      (hhigh c (List.mem_cons_self c l)) (fun d hd => hhigh d (List.mem_cons_of_mem c hd))
      hlow (by simpa [decodeFold_cons] using hbound)
    rw [show (val + 1) <<< 7 + (c &&& 127) = decodeStep val c from rfl, this]
    simp only [List.cons_append, decodeFold_cons, List.length_cons, Option.some.injEq,
      Prod.mk.injEq]
    exact ⟨trivial, by omega⟩

/-- For `u ≠ 0` the continuation bytes decode back to `u - 1`. -/
theorem varint_encode_aux_val (u : Nat) (hu : u ≠ 0) :
    ∃ c cs, varint_encode_aux u [] = c :: cs ∧ decodeFold (c &&& 127) cs = u - 1 := by
  induction u using Nat.strong_induction_on with
  | _ u ih =>
    match u, hu with
    | u' + 1, _ =>
      have hrec : varint_encode_aux (u' + 1) [] =
          varint_encode_aux (u' >>> 7) [] ++ [128 ||| (u' &&& 127)] := by
        rw [varint_encode_aux, varint_encode_aux_append]
      have hmask : u' &&& 127 < 128 := by
        have : u' &&& 127 = u' % 128 := by
          have := Nat.and_pow_two_sub_one_eq_mod u' 7
          simpa using this
        omega
      have hbyte : (128 ||| (u' &&& 127)) &&& 127 = u' &&& 127 := by
        have := @or_two_pow_and_mask (u' &&& 127) 7 (by simpa using hmask)
        simpa using this
      rcases Nat.eq_zero_or_pos (u' >>> 7) with hz | hpos
      · refine ⟨128 ||| (u' &&& 127), [], ?_, ?_⟩
        · rw [hrec, hz]; simp [varint_encode_aux]
        · show (128 ||| (u' &&& 127)) &&& 127 = u' + 1 - 1
          have hsmall : u' < 128 := by
            have := Nat.shiftRight_eq_div_pow u' 7
            have : u' / 128 = 0 := by
              have h := hz
              rw [Nat.shiftRight_eq_div_pow] at h
              simpa using h
            omega
          have hmod : u' &&& 127 = u' := by
            have := Nat.and_pow_two_sub_one_eq_mod u' 7
            simp at this
            omega
          rw [hbyte, hmod]
          omega
      · obtain ⟨c, cs, hcs, hval⟩ := ih (u' >>> 7) (shiftRight7_lt_succ u') (Nat.pos_iff_ne_zero.mp hpos)
        refine ⟨c, cs ++ [128 ||| (u' &&& 127)], ?_, ?_⟩
        · rw [hrec, hcs]; simp
        · rw [decodeFold_append, hval]
          simp only [decodeFold, List.foldl_cons, List.foldl_nil, decodeStep, hbyte]
          have h1 : u' >>> 7 - 1 + 1 = u' >>> 7 := Nat.succ_pred_eq_of_pos hpos
          rw [h1, Nat.shiftLeft_eq]
          have hdm : u' >>> 7 * 2 ^ 7 + u' % 128 = u' := by
            rw [Nat.shiftRight_eq_div_pow]
            have := Nat.div_add_mod u' 128
            norm_num
            omega
          have hmod : u' &&& 127 = u' % 128 := by
            have := Nat.and_pow_two_sub_one_eq_mod u' 7
            simpa using this
          omega

/-! ### Varint round-trip and length monotonicity -/

theorem varint_decode_encode (v : Nat) (hv : v < 2 ^ 64) :
    varint_decode (varint_encode v) = some (v, (varint_encode v).length) := by
  have hmod : v % 2 ^ 64 = v := Nat.mod_eq_of_lt hv
  have henc : varint_encode v = varint_encode_aux (v >>> 7) [] ++ [v &&& 127] := by
    rw [varint_encode]
    simp only [hmod]
    rw [varint_encode_aux_append]
  have hlow_lt : v &&& 127 < 128 := by
    have := Nat.and_pow_two_sub_one_eq_mod v 7
    simp at this
    omega
  have hlow : (v &&& 127) &&& 128 = 0 := by
    have := @and_two_pow_eq_zero_of_lt (v &&& 127) 7 (by simpa using hlow_lt)
    simpa using this
  rcases Nat.eq_zero_or_pos (v >>> 7) with hz | hpos
  · have hsmall : v < 128 := by
      rw [Nat.shiftRight_eq_div_pow] at hz
      simp at hz
      omega
    have hvand : v &&& 127 = v := by
      have := Nat.and_pow_two_sub_one_eq_mod v 7
      simp at this
      omega
    have hv128 : v &&& 128 = 0 := by
      have := @and_two_pow_eq_zero_of_lt v 7 (by norm_num [hsmall])
      simpa using this
    rw [henc, hz]
    simp only [varint_encode_aux, List.nil_append, List.length_cons, List.length_nil]
    rw [varint_decode, varint_decode_go.eq_def]
    simp [hvand, hlow, hv128]
  · obtain ⟨c, cs, hcs, hval⟩ := varint_encode_aux_val (v >>> 7) (Nat.pos_iff_ne_zero.mp hpos)
    have hc_high : c &&& 128 ≠ 0 :=
      varint_encode_aux_high (v >>> 7) c (by rw [hcs]; exact List.mem_cons_self c cs)
    have hcs_high : ∀ d ∈ cs, d &&& 128 ≠ 0 := fun d hd =>
      varint_encode_aux_high (v >>> 7) d (by rw [hcs]; exact List.mem_cons_of_mem c hd)
    have hu_lt : v >>> 7 < 2 ^ 57 := by
      rw [Nat.shiftRight_eq_div_pow]
      have h1 : v / 2 ^ 7 < 2 ^ 64 / 2 ^ 7 := by
        apply Nat.div_lt_div_of_lt_of_dvd
        · exact Dvd.intro (2 ^ 57) rfl
        · exact hv
      simpa using h1
    have hbound : decodeFold (c &&& 127) cs < 2 ^ 57 := by
      rw [hval]; omega
    rw [henc, hcs]
    simp only [List.cons_append, List.length_append, List.length_cons, List.length_nil]
    rw [varint_decode]
    rw [varint_decode_go_spec cs c (c &&& 127) 1 (v &&& 127) [] hc_high hcs_high hlow hbound]
    rw [decodeFold_append, hval]
    simp only [decodeFold, List.foldl_cons, List.foldl_nil, decodeStep]
    have h1 : v >>> 7 - 1 + 1 = v >>> 7 := Nat.succ_pred_eq_of_pos hpos
    rw [h1, Nat.shiftLeft_eq]
    have hvand : (v &&& 127) &&& 127 = v &&& 127 := by
      have := @and_mask_eq_of_lt (v &&& 127) 7 (by norm_num [hlow_lt])
      simpa using this
    have hmod7 : v &&& 127 = v % 128 := by
      have := Nat.and_pow_two_sub_one_eq_mod v 7
      simpa using this
    have hdm : v >>> 7 * 2 ^ 7 + v % 128 = v := by
      rw [Nat.shiftRight_eq_div_pow]
      have := Nat.div_add_mod v 128
      norm_num
      omega
    rw [hvand, hmod7]
    simp only [Option.some.injEq, Prod.mk.injEq]
    constructor
    · omega
    · omega

theorem varint_encode_aux_length_mono :
    ∀ b a, a ≤ b →
    (varint_encode_aux a []).length ≤ (varint_encode_aux b []).length := by
  intro b
  induction b using Nat.strong_induction_on with
  | _ b ih =>
    intro a hab
    match a, b with
    | 0, b => simp [varint_encode_aux]
    | a' + 1, 0 => omega
    | a' + 1, b' + 1 =>
      have ha : varint_encode_aux (a' + 1) [] =
          varint_encode_aux (a' >>> 7) [] ++ [128 ||| (a' &&& 127)] := by
        rw [varint_encode_aux, varint_encode_aux_append]
      have hb : varint_encode_aux (b' + 1) [] =
          varint_encode_aux (b' >>> 7) [] ++ [128 ||| (b' &&& 127)] := by
        rw [varint_encode_aux, varint_encode_aux_append]
      rw [ha, hb]
      simp only [List.length_append, List.length_cons, List.length_nil]
      have hshift : a' >>> 7 ≤ b' >>> 7 := by
        simp only [Nat.shiftRight_eq_div_pow]
        exact Nat.div_le_div_right (by omega)
      have := ih (b' >>> 7) (shiftRight7_lt_succ b') (a' >>> 7) hshift
      omega

theorem varint_encode_zero : varint_encode 0 = [0] := by
  rw [varint_encode]
  norm_num
  rw [varint_encode_aux]

/-- **C4**: for every `v` representable in 64 bits,
`varint_decode (varint_encode v)` returns `(v, n)` with `n` the byte length
of `varint_encode v`; `varint_encode 0` is exactly one zero byte; and the
encoded length is monotonically non-decreasing in the encoded value. -/
theorem varint_law (v w : Nat) (hv : v < 2 ^ 64) (hw : w < 2 ^ 64) (hvw : v ≤ w) :
    varint_decode (varint_encode v) = some (v, (varint_encode v).length) ∧
    varint_encode 0 = [0] ∧
    (varint_encode v).length ≤ (varint_encode w).length := by
  refine ⟨varint_decode_encode v hv, varint_encode_zero, ?_⟩
  have hvm : v % 2 ^ 64 = v := Nat.mod_eq_of_lt hv
  have hwm : w % 2 ^ 64 = w := Nat.mod_eq_of_lt hw
  have hev : varint_encode v = varint_encode_aux (v >>> 7) [] ++ [v &&& 127] := by
    rw [varint_encode]
    simp only [hvm]
    rw [varint_encode_aux_append]
  have hew : varint_encode w = varint_encode_aux (w >>> 7) [] ++ [w &&& 127] := by
    rw [varint_encode]
    simp only [hwm]
    rw [varint_encode_aux_append]
  rw [hev, hew]
  simp only [List.length_append, List.length_cons, List.length_nil]
  have hshift : v >>> 7 ≤ w >>> 7 := by
    simp only [Nat.shiftRight_eq_div_pow]
    exact Nat.div_le_div_right hvw
  have := varint_encode_aux_length_mono (w >>> 7) (v >>> 7) hshift
  omega

/-- Witness for C4 at concrete inputs `v = 300`, `w = 70000`. -/
theorem varint_law_witness :
    varint_decode (varint_encode 300) = some (300, (varint_encode 300).length) ∧
    varint_encode 0 = [0] ∧
    (varint_encode 300).length ≤ (varint_encode 70000).length :=
  varint_law 300 70000 (by norm_num) (by norm_num) (by norm_num)

/-! ## dino/section.py — `IndexInfo`, the index section's 32-bit `info` word

`IndexFlags`: `NoFanout = 1`, `Off64 = 2`, `UncSize = 4`. -/

theorem or_shiftLeft_eq_add {k : Nat} :
    ∀ a b : Nat, a < 2 ^ k → a ||| (b <<< k) = a + b * 2 ^ k := by
  induction k with
  | zero =>
    intro a b ha
    have : a = 0 := by omega
    subst this
    simp [Nat.shiftLeft_eq]
  | succ k ih =>
    intro a b ha
    have hc2 : b <<< (k + 1) = 2 * (b <<< k) := by
      simp only [Nat.shiftLeft_eq, pow_succ]
      ring
    have hdiv : (a ||| (b <<< (k + 1))) / 2 = a / 2 + b * 2 ^ k := by
      rw [Nat.or_div_two, hc2]
      have hc : 2 * (b <<< k) / 2 = b <<< k := by omega
      rw [hc, ih (a / 2) b (by omega)]
    have hmod : (a ||| (b <<< (k + 1))) % 2 = a % 2 := by
      rw [← Nat.and_one_is_mod, Nat.and_distrib_right, Nat.and_one_is_mod,
        Nat.and_one_is_mod]
      have hc : b <<< (k + 1) % 2 = 0 := by
        rw [hc2]
        omega
      rw [hc]
      simp [Nat.or_zero]
    have h2 : a ||| (b <<< (k + 1)) =
        2 * ((a ||| (b <<< (k + 1))) / 2) + (a ||| (b <<< (k + 1))) % 2 := by omega
    have hp : (2 : Nat) ^ (k + 1) = 2 ^ k * 2 := pow_succ 2 k
    have hb2 : b * (2 ^ k * 2) = 2 * (b * 2 ^ k) := by ring
    rw [h2, hdiv, hmod, hp, hb2]
    omega

/-- The `IndexInfo` dataclass: the decoded form of an index section's
`info` word. -/
structure IndexInfo where
  othersec : Nat := 0
  keysize : Nat := 0
  fanout : Bool := true
  off64 : Bool := false
  unc_size : Bool := true
deriving DecidableEq

/-- `IndexInfo.flags`: `NONE | (not fanout and NoFanout) | (off64 and Off64)
| (unc_size and UncSize)` (a false conjunct contributes `0`). -/
def IndexInfo.flagsInt (i : IndexInfo) : Nat :=
  (if i.fanout then 0 else 1) ||| (if i.off64 then 2 else 0) |||
    (if i.unc_size then 4 else 0)

/-- `IndexInfo.to_int`: `keysize | (othersec << 8) | (flags << 16)`; a
`ValueError` for an othersec/keysize outside `0..0xff` is `none`. -/
def IndexInfo.to_int (i : IndexInfo) : Option Nat :=
  if i.othersec > 0xff then none
  else if i.keysize > 0xff then none
  else some (i.keysize ||| (i.othersec <<< 8) ||| (i.flagsInt <<< 16))

/-- `IndexInfo.from_int`: extract `keysize`, `othersec` and the flag bits
(`fanout` is true iff `NoFanout` is *not* set). -/
def IndexInfo.from_int (info : Nat) : IndexInfo :=
  let flags := (info >>> 16) &&& 0xff
  { keysize := info &&& 0xff
    othersec := (info >>> 8) &&& 0xff
    fanout := flags &&& 1 = 0
    off64 := flags &&& 2 ≠ 0
    unc_size := flags &&& 4 ≠ 0 }

theorem IndexInfo.flagsInt_lt (i : IndexInfo) : i.flagsInt < 8 := by
  rcases i with ⟨o, k, f, s, u⟩
  cases f <;> cases s <;> cases u <;> simp [IndexInfo.flagsInt]

/-- **C10**: packing an `IndexInfo` whose `othersec` and `keysize` fit in a
byte into the 32-bit `info` word and unpacking it returns the original
`IndexInfo`. -/
theorem IndexInfo.from_int_to_int (i : IndexInfo)
    (ho : i.othersec ≤ 0xff) (hk : i.keysize ≤ 0xff) :
    (i.to_int).map IndexInfo.from_int = some i := by
  have hto : i.to_int =
      some (i.keysize ||| (i.othersec <<< 8) ||| (i.flagsInt <<< 16)) := by
    rw [to_int, if_neg (by omega), if_neg (by omega)]
  have h1 : i.keysize ||| (i.othersec <<< 8) = i.keysize + i.othersec * 2 ^ 8 :=
    or_shiftLeft_eq_add i.keysize i.othersec (by omega)
  have h2 : i.keysize + i.othersec * 2 ^ 8 < 2 ^ 16 := by omega
  have h3 : i.keysize ||| (i.othersec <<< 8) ||| (i.flagsInt <<< 16) =
      i.keysize + i.othersec * 2 ^ 8 + i.flagsInt * 2 ^ 16 := by
    rw [h1]
    exact or_shiftLeft_eq_add _ i.flagsInt h2
  set N := i.keysize + i.othersec * 2 ^ 8 + i.flagsInt * 2 ^ 16 with hN
  have hflt := i.flagsInt_lt
  have hks : N &&& 0xff = i.keysize := by
    have : N &&& 0xff = N % 2 ^ 8 := by
      have := Nat.and_pow_two_sub_one_eq_mod N 8
      simpa using this
    rw [this]
    omega
  have hos : (N >>> 8) &&& 0xff = i.othersec := by
    have hdiv : N >>> 8 = N / 2 ^ 8 := Nat.shiftRight_eq_div_pow N 8
    have : (N >>> 8) &&& 0xff = (N >>> 8) % 2 ^ 8 := by
      have := Nat.and_pow_two_sub_one_eq_mod (N >>> 8) 8
      simpa using this
    rw [this, hdiv]
    omega
  have hfl : (N >>> 16) &&& 0xff = i.flagsInt := by
    have hdiv : N >>> 16 = N / 2 ^ 16 := Nat.shiftRight_eq_div_pow N 16
    have : (N >>> 16) &&& 0xff = (N >>> 16) % 2 ^ 8 := by
      have := Nat.and_pow_two_sub_one_eq_mod (N >>> 16) 8
      simpa using this
    rw [this, hdiv]
    omega
  rw [hto, Option.map_some', Option.some.injEq, h3]
  rcases i with ⟨o, k, f, s, u⟩
  simp only [IndexInfo.from_int, hks, hos, hfl]
  cases f <;> cases s <;> cases u <;>
    simp [IndexInfo.flagsInt, IndexInfo.mk.injEq] <;> decide

/-- Witness for C10 at a concrete `IndexInfo`. -/
theorem IndexInfo.from_int_to_int_witness :
    (IndexInfo.to_int ⟨3, 32, false, true, true⟩).map IndexInfo.from_int =
      some ⟨3, 32, false, true, true⟩ :=
  IndexInfo.from_int_to_int ⟨3, 32, false, true, true⟩ (by norm_num) (by norm_num)

/-! ## dino/section.py — `IndexSection` in-memory state

An `IndexSection`'s `_data` is a Python dict from packed key bytes to a
tuple of ints; we model it as an association list in insertion order
(Python dicts preserve insertion order, and re-assigning an existing key
keeps its position). -/

/-- `Struct(f'{w}s').pack(key)`: the `s` format pads a shorter byte string
with NUL bytes and silently truncates a longer one to width `w`. -/
def key_pack (w : Nat) (k : List Nat) : List Nat :=
  k.take w ++ List.replicate (w - k.length) 0

/-- Python `d[k] = v` on an insertion-ordered dict. -/
def dinsert {α : Type} (m : List (List Nat × α)) (k : List Nat) (v : α) :
    List (List Nat × α) :=
  match m with
  | [] => [(k, v)]
  | (k', v') :: rest => if k' = k then (k', v) :: rest else (k', v') :: dinsert rest k v

/-- Python `d.get(k)`. -/
def dlookup {α : Type} (m : List (List Nat × α)) (k : List Nat) : Option α :=
  match m with
  | [] => none
  | (k', v') :: rest => if k' = k then some v' else dlookup rest k

/-- `IndexSection.add2(key, offset, size)`:
`self._data[self._key_s.pack(key)] = (offset, size)`. -/
def IndexSection.add2 (w : Nat) (m : List (List Nat × List Nat)) (key : List Nat)
    (offset size : Nat) : List (List Nat × List Nat) :=
  dinsert m (key_pack w key) [offset, size]

/-- `IndexSection.add3(key, offset, size, uncsize)`:
`self._data[self._key_s.pack(key)] = (offset, size, uncsize)`. -/
def IndexSection.add3 (w : Nat) (m : List (List Nat × List Nat)) (key : List Nat)
    (offset size uncsize : Nat) : List (List Nat × List Nat) :=
  dinsert m (key_pack w key) [offset, size, uncsize]

theorem key_pack_length (w : Nat) (k : List Nat) : (key_pack w k).length = w := by
  simp [key_pack]
  omega

theorem key_pack_of_length_eq {w : Nat} {k : List Nat} (h : k.length = w) :
    key_pack w k = k := by
  simp [key_pack, h, List.take_of_length_le (le_of_eq h)]

theorem dlookup_dinsert_self {α : Type} (m : List (List Nat × α)) (k : List Nat) (v : α) :
    dlookup (dinsert m k v) k = some v := by
  induction m with
  | nil => simp [dinsert, dlookup]
  | cons p rest ih =>
    rcases p with ⟨k', v'⟩
    by_cases h : k' = k
    · simp [dinsert, dlookup, h]
    · simp [dinsert, dlookup, h, ih]

/-- **C8** (amended): `add` never rejects a key.  A key of the wrong byte
width is padded with NUL bytes or truncated to the configured width and the
mapping is recorded under that packed key; a key of the configured width is
recorded exactly. -/
theorem add3_records_packed_key (w : Nat) (m : List (List Nat × List Nat))
    (k : List Nat) (o s u : Nat) :
    (key_pack w k).length = w ∧
    dlookup (IndexSection.add3 w m k o s u) (key_pack w k) = some [o, s, u] ∧
    (k.length = w → key_pack w k = k) ∧
    (k.length ≠ w → key_pack w k ≠ k) := by
  refine ⟨key_pack_length w k, dlookup_dinsert_self m _ _, fun h => key_pack_of_length_eq h, ?_⟩
  intro hne heq
  exact hne (heq ▸ key_pack_length w k)

/-- Witness for the amended C8 at `w = 2`, `k = [1]` on an empty index. -/
theorem add3_records_packed_key_witness :
    (key_pack 2 [1]).length = 2 ∧
    dlookup (IndexSection.add3 2 [] [1] 7 8 9) (key_pack 2 [1]) = some [7, 8, 9] ∧
    ((1 : Nat) = 2 → key_pack 2 [1] = [1]) ∧
    ((1 : Nat) ≠ 2 → key_pack 2 [1] ≠ [1]) := by
  have h := add3_records_packed_key 2 [] [1] 7 8 9
  simpa using h

/-- **C8** (counterexample to the claim as stated): `add` on an index with
key width 2 accepts the 1-byte key `[1]` and records the mapping under the
padded key `[1, 0]` — it is not rejected. -/
theorem add3_wrong_width_is_recorded :
    IndexSection.add3 2 [] [1] 7 8 9 = [([1, 0], [7, 8, 9])] ∧ [1, 0] ≠ [1] := by
  constructor
  · rfl
  · decide

/-! ## dino/section.py — `IndexSection.make_fanout` (fanout table path)

`make_fanout` with `varint=False` builds `fanout[0:257]` with
`fanout[i+1] = fanout[i] + counts[i]` over `counts = Counter(k[0] for k in
self.keys())` and packs `fanout[1:]` with `Struct('256I')` (which raises
`struct.error` for an entry that does not fit in 32 bits). -/

/-- `Counter(k[0] for k in keys)[b]`: how many keys have leading byte `b`.
(`k[0]` of an empty key would raise `IndexError`; stored keys are always
`keysize` wide, and the claims assume nonempty keys.) -/
def leadCount (keys : List (List Nat)) (b : Nat) : Nat :=
  (keys.filter (fun k => k.headD 0 = b)).length

/-- The running total `fanout[n]` of the source's fanout loop. -/
def fanout_cumul (keys : List (List Nat)) : Nat → Nat
  | 0 => 0
  | n + 1 => fanout_cumul keys n + leadCount keys n

/-- The 256 fanout entries `fanout[1:]` handed to `Struct('256I').pack`. -/
def make_fanout_entries (keys : List (List Nat)) : List Nat :=
  (List.range 256).map (fun i => fanout_cumul keys (i + 1))

/-- `make_fanout` (non-varint): the packed entries, `none` when
`Struct('256I').pack` raises because an entry exceeds 32 bits. -/
def make_fanout (keys : List (List Nat)) : Option (List Nat) :=
  if (make_fanout_entries keys).all (fun v => v < 2 ^ 32) then
    some (make_fanout_entries keys)
  else none

theorem filter_headD_le_succ (l : List (List Nat)) (n : Nat) :
    (l.filter (fun k => k.headD 0 ≤ n + 1)).length =
      (l.filter (fun k => k.headD 0 ≤ n)).length +
        (l.filter (fun k => k.headD 0 = n + 1)).length := by
  induction l with
  | nil => simp
  | cons a l ih =>
    simp only [List.filter_cons, decide_eq_true_eq]
    by_cases h1 : a.headD 0 ≤ n
    · have h2 : a.headD 0 ≤ n + 1 := by omega
      have h3 : ¬ a.headD 0 = n + 1 := by omega
      rw [if_pos h2, if_pos h1, if_neg h3]
      simp only [List.length_cons]
      omega
    · by_cases h2 : a.headD 0 = n + 1
      · have h3 : a.headD 0 ≤ n + 1 := by omega
        rw [if_pos h3, if_neg h1, if_pos h2]
        simp only [List.length_cons]
        omega
      · have h3 : ¬ a.headD 0 ≤ n + 1 := by omega
        rw [if_neg h3, if_neg h1, if_neg h2]
        exact ih

theorem fanout_cumul_eq (keys : List (List Nat)) :
    ∀ n, fanout_cumul keys (n + 1) =
      (keys.filter (fun k => k.headD 0 ≤ n)).length := by
  intro n
  induction n with
  | zero =>
    simp only [fanout_cumul, leadCount, Nat.zero_add]
    congr 1
    apply List.filter_congr
    intro k _
    simp [Nat.le_zero]
  | succ n ih =>
    rw [fanout_cumul, ih, filter_headD_le_succ]
    rfl

/-- **C3**: with fanout enabled and varint encoding disabled, `make_fanout`
produces exactly 256 entries, and entry `b` is the number of stored keys
whose leading byte is `≤ b`. -/
theorem make_fanout_law (keys : List (List Nat)) (hne : ∀ k ∈ keys, k ≠ [])
    (hcount : keys.length < 2 ^ 32) :
    ∃ entries, make_fanout keys = some entries ∧ entries.length = 256 ∧
      ∀ b, b < 256 →
        entries.getD b 0 = (keys.filter (fun k => k.headD 0 ≤ b)).length := by
  have hall : (make_fanout_entries keys).all (fun v => v < 2 ^ 32) = true := by
    rw [List.all_eq_true]
    intro v hv
    simp only [make_fanout_entries, List.mem_map, List.mem_range] at hv
    obtain ⟨i, _, rfl⟩ := hv
    rw [fanout_cumul_eq]
    simp only [decide_eq_true_eq]
    exact lt_of_le_of_lt (List.length_filter_le _ _) hcount
  refine ⟨make_fanout_entries keys, ?_, ?_, ?_⟩
  · rw [make_fanout, if_pos hall]
  · simp [make_fanout_entries]
  · intro b hb
    have hget : (make_fanout_entries keys).getD b 0 = fanout_cumul keys (b + 1) := by
      simp only [make_fanout_entries, List.getD_eq_getElem?_getD]
      rw [List.getElem?_map]
      simp [List.getElem?_range hb]
    rw [hget, fanout_cumul_eq]

/-- Witness for C3 on the key set `{[2, 9], [0, 5], [2, 7]}`. -/
theorem make_fanout_law_witness :
    ∃ entries, make_fanout [[2, 9], [0, 5], [2, 7]] = some entries ∧
      entries.length = 256 ∧
      ∀ b, b < 256 →
        entries.getD b 0 =
          ([[2, 9], [0, 5], [2, 7]].filter (fun k => k.headD 0 ≤ b)).length :=
  make_fanout_law [[2, 9], [0, 5], [2, 7]] (by decide) (by norm_num)

/-! ## dino/section.py — `IndexSection.write_to`: sorted key array

`write_to` does `keys, vals = zip(*(sorted(self.items())))` and then emits
`self._key_s.pack(k)` for each key in order.  Python compares `bytes`
lexicographically by unsigned byte value (a strict prefix sorts first), and
compares the `(key, value)` item tuples by key first — since dict keys are
unique, the value components never take part in the comparison. -/

/-- Python `<=` on `bytes`. -/
def byteLe : List Nat → List Nat → Bool
  | [], _ => true
  | _ :: _, [] => false
  | a :: as, b :: bs => if a < b then true else if b < a then false else byteLe as bs

/-- Python `<` on `bytes`. -/
def byteLt : List Nat → List Nat → Bool
  | [], [] => false
  | [], _ :: _ => true
  | _ :: _, [] => false
  | a :: as, b :: bs => if a < b then true else if b < a then false else byteLt as bs

theorem byteLe_total : ∀ a b, byteLe a b || byteLe b a := by
  intro a
  induction a with
  | nil => intro b; simp [byteLe]
  | cons x as ih =>
    intro b
    match b with
    | [] => simp [byteLe]
    | y :: bs =>
      by_cases h1 : x < y
      · simp [byteLe, h1]
      · by_cases h2 : y < x
        · simp [byteLe, h1, h2]
        · have hxy : ¬ x < y := h1
          simp [byteLe, h1, h2, hxy]
          rcases Bool.or_eq_true_iff.mp (ih bs) with h | h
          · exact Or.inl h
          · exact Or.inr h

theorem byteLe_trans :
    ∀ a b c, byteLe a b = true → byteLe b c = true → byteLe a c = true := by
  intro a
  induction a with
  | nil => intro b c _ _; simp [byteLe]
  | cons x as ih =>
    intro b c hab hbc
    match b, c with
    | [], _ => simp [byteLe] at hab
    | _ :: _, [] => simp [byteLe] at hbc
    | y :: bs, z :: cs =>
      simp only [byteLe] at hab hbc ⊢
      by_cases h1 : x < y
      · by_cases h2 : y < z
        · have h5 : x < z := by omega
          simp [h5]
        · by_cases h3 : z < y
          · simp [h2, h3] at hbc
          · have h5 : x < z := by omega
            simp [h5]
      · by_cases h3 : y < x
        · simp [h1, h3] at hab
        · have hxy : x = y := by omega
          subst hxy
          rw [if_neg (lt_irrefl x), if_neg (lt_irrefl x)] at hab
          by_cases h2 : x < z
          · simp [h2]
          · by_cases h4 : z < x
            · simp [h2, h4] at hbc
            · rw [if_neg h2, if_neg h4] at hbc ⊢
              exact ih bs cs hab hbc

theorem byteLt_of_byteLe_of_ne :
    ∀ a b, byteLe a b = true → a ≠ b → byteLt a b = true := by
  intro a
  induction a with
  | nil =>
    intro b _ hne
    match b with
    | [] => exact absurd rfl hne
    | _ :: _ => simp [byteLt]
  | cons x as ih =>
    intro b hle hne
    match b with
    | [] => simp [byteLe] at hle
    | y :: bs =>
      simp only [byteLe] at hle
      simp only [byteLt]
      by_cases h1 : x < y
      · simp [h1]
      · by_cases h2 : y < x
        · simp [h1, h2] at hle
        · have hxy : x = y := by omega
          subst hxy
          rw [if_neg (lt_irrefl x), if_neg (lt_irrefl x)] at hle
          rw [if_neg (lt_irrefl x), if_neg (lt_irrefl x)]
          exact ih bs hle (fun h => hne (by rw [h]))

/-- `sorted(self.items())`: Python's stable sort of the item tuples;
with unique dict keys this is a stable sort by key bytes. -/
def sorted_items (m : List (List Nat × List Nat)) : List (List Nat × List Nat) :=
  m.mergeSort (fun p q => byteLe p.1 q.1)

/-- The key array emitted by `write_to`: each sorted key repacked with
`self._key_s.pack`. -/
def write_keys (w : Nat) (m : List (List Nat × List Nat)) : List (List Nat) :=
  (sorted_items m).map (fun p => key_pack w p.1)

/-- A sequence of `add` calls `(key, offset, size, uncsize)` applied to a
fresh index. -/
def applyAdds (w : Nat) (ops : List (List Nat × Nat × Nat × Nat)) :
    List (List Nat × List Nat) :=
  ops.foldl (fun m op => IndexSection.add3 w m op.1 op.2.1 op.2.2.1 op.2.2.2) []

theorem dinsert_keys_sub {α : Type} (m : List (List Nat × α)) (k : List Nat) (v : α) :
    ∀ k', k' ∈ (dinsert m k v).map Prod.fst → k' ∈ m.map Prod.fst ∨ k' = k := by
  induction m with
  | nil => intro k' h; simp [dinsert] at h; simp [h]
  | cons p rest ih =>
    intro k' h
    rcases p with ⟨k₀, v₀⟩
    by_cases he : k₀ = k
    · simp [dinsert, he] at h
      rcases h with h | h
      · simp [h, he]
      · simp [h]
    · simp [dinsert, he] at h
      rcases h with h | h
      · simp [h]
      · rcases ih k' (by simpa using h) with h2 | h2
        · simp [h2]
        · simp [h2]

theorem dinsert_keys_nodup {α : Type} (m : List (List Nat × α)) (k : List Nat) (v : α)
    (hm : (m.map Prod.fst).Nodup) : ((dinsert m k v).map Prod.fst).Nodup := by
  induction m with
  | nil => simp [dinsert]
  | cons p rest ih =>
    rcases p with ⟨k₀, v₀⟩
    simp only [List.map_cons, List.nodup_cons] at hm
    by_cases he : k₀ = k
    · simp only [dinsert, if_pos he, List.map_cons, List.nodup_cons]
      exact hm
    · simp only [dinsert, if_neg he, List.map_cons, List.nodup_cons]
      refine ⟨?_, ih hm.2⟩
      intro hmem
      rcases dinsert_keys_sub rest k v k₀ hmem with h | h
      · exact hm.1 h
      · exact he h

theorem dinsert_keys_length {α : Type} (m : List (List Nat × α)) (k : List Nat) (v : α)
    (w : Nat) (hm : ∀ k' ∈ m.map Prod.fst, k'.length = w) (hk : k.length = w) :
    ∀ k' ∈ (dinsert m k v).map Prod.fst, k'.length = w := by
  intro k' hmem
  rcases dinsert_keys_sub m k v k' hmem with h | h
  · exact hm k' h
  · rw [h]; exact hk

theorem applyAdds_keys_length (w : Nat) (ops : List (List Nat × Nat × Nat × Nat)) :
    ∀ k ∈ (applyAdds w ops).map Prod.fst, k.length = w := by
  suffices h : ∀ m, (∀ k ∈ (m : List (List Nat × List Nat)).map Prod.fst, k.length = w) →
      ∀ k ∈ ((ops.foldl (fun m op => IndexSection.add3 w m op.1 op.2.1 op.2.2.1 op.2.2.2)
        m).map Prod.fst), k.length = w by
    exact h [] (by simp)
  induction ops with
  | nil => intro m hm; simpa using hm
  | cons op rest ih =>
    intro m hm
    exact ih _ (dinsert_keys_length m _ _ w hm (key_pack_length w op.1))

theorem applyAdds_keys_nodup (w : Nat) (ops : List (List Nat × Nat × Nat × Nat)) :
    ((applyAdds w ops).map Prod.fst).Nodup := by
  suffices h : ∀ m, ((m : List (List Nat × List Nat)).map Prod.fst).Nodup →
      ((ops.foldl (fun m op => IndexSection.add3 w m op.1 op.2.1 op.2.2.1 op.2.2.2) m).map
        Prod.fst).Nodup by
    exact h [] (by simp)
  induction ops with
  | nil => intro m hm; simpa using hm
  | cons op rest ih =>
    intro m hm
    exact ih _ (dinsert_keys_nodup m _ _ hm)

/-- **C7**: whatever the insertion order, the key array emitted by
`write_to` is strictly ascending in the unsigned byte-lexicographic order
(in particular the emitted keys are unique). -/
theorem write_keys_sorted (w : Nat) (ops : List (List Nat × Nat × Nat × Nat)) :
    List.Pairwise (fun a b => byteLt a b = true) (write_keys w (applyAdds w ops)) := by
  set m := applyAdds w ops with hm
  have hnodup : (m.map Prod.fst).Nodup := applyAdds_keys_nodup w ops
  have hsorted : List.Pairwise (fun p q : List Nat × List Nat => byteLe p.1 q.1 = true)
      (sorted_items m) :=
    @List.sorted_mergeSort _ (fun p q => byteLe p.1 q.1)
      (fun a b c hab hbc => byteLe_trans a.1 b.1 c.1 hab hbc)
      (fun a b => byteLe_total a.1 b.1) m
  have hperm : (sorted_items m).Perm m := List.mergeSort_perm m _
  have hnodup' : ((sorted_items m).map Prod.fst).Nodup :=
    (List.Perm.nodup_iff (List.Perm.map Prod.fst hperm)).mpr hnodup
  have hne : List.Pairwise (fun p q : List Nat × List Nat => p.1 ≠ q.1)
      (sorted_items m) :=
    List.pairwise_map.mp hnodup'
  have hcomb : List.Pairwise
      (fun p q : List Nat × List Nat => byteLt p.1 q.1 = true) (sorted_items m) := by
    have hand := List.Pairwise.and hsorted hne
    exact hand.imp (fun h => byteLt_of_byteLe_of_ne _ _ h.1 h.2)
  have hlen : ∀ p ∈ sorted_items m, (p : List Nat × List Nat).1.length = w := by
    intro p hp
    have hpm : p ∈ m := (List.Perm.mem_iff hperm).mp hp
    exact applyAdds_keys_length w ops p.1 (List.mem_map_of_mem Prod.fst hpm)
  rw [write_keys.eq_def, List.pairwise_map]
  refine List.Pairwise.imp_of_mem ?_ hcomb
  intro p q hp hq h
  rw [key_pack_of_length_eq (hlen p hp), key_pack_of_length_eq (hlen q hq)]
  exact h

/-! ## mkdino.py — the `merge_rpms` build pipeline

`merge_rpms` streams each package's payload, verifies per-file digests,
deduplicates file content into the `.filedata` section keyed by the archive's
dedup digest, and appends each (possibly order-annotated) header to the
`.rpmhdr` section.  Digest and compression algorithms are opaque parameters
of the model; `kw` is the index key width (`hashsize(d.idxalgo)` in the
source).  A raised exception is `Except.error`:
`VerifyError` (digest mismatch), `KeyError` (`hdridx[item.name]`),
`IndexError`/`TypeError` (`fnames[n]` / `digests[idx]`), `struct.error`
(`struct.pack('I', i)` out of range). -/

/-- One entry of `r.payload_iter()`: a name, the regular-file flag, and the
decompressed content (`item.size` is its byte length). -/
structure PItem where
  name : Nat
  isreg : Bool
  content : List Nat
deriving DecidableEq

/-- One package as `merge_rpms` reads it: header file list and digest list,
payload items in archive order, raw header bytes (`r.headersize - 0x60`
bytes after the lead), the main-header size `r.hdr.size`, the optional
signature-header SHA256 (`r.sig.getval(SigTag.SHA256, '')`), and the
package's file digest algorithm (`Tag.FILEDIGESTALGO`). -/
structure Pkg where
  fnames : List Nat
  digests : List (List Nat)
  items : List PItem
  hdr : List Nat
  hdrsize : Nat
  sig : Option (List Nat)
  rpmalgo : Nat
deriving DecidableEq

/-- The model's opaque digest and compression functions:
`rpmhash algo content` is `gethasher(algo)` streamed over the content
(`hexdigest()`), `idxhash` is the archive's dedup digest (`digest()` of
`d.idxalgo`), `sha256` the signature check hash, and `compress content` the
single compressed frame a `copy_stream` call emits for that content. -/
structure HashModel where
  rpmhash : Nat → List Nat → List Nat
  idxhash : List Nat → List Nat
  sha256 : List Nat → List Nat
  compress : List Nat → List Nat

/-- The archive sections `merge_rpms` populates: `.filedata` frames (stored
per frame as `compress content`; the model keeps the uncompressed content),
the `.filedata.idx` map, `.rpmhdr` frames, and the `.rpmhdr.idx` map. -/
structure AState where
  frames : List (List Nat)
  fileidx : List (List Nat × (Nat × Nat × Nat))
  hframes : List (List Nat)
  rpmidx : List (List Nat × (Nat × Nat × Nat))
deriving DecidableEq

def AState.empty : AState := ⟨[], [], [], []⟩

inductive MErr where
  | verify
  | keyError
  | indexError
  | structError
deriving DecidableEq

/-- `fobj.tell()` of a blob section: the bytes written so far. -/
def framesSize (hm : HashModel) (frames : List (List Nat)) : Nat :=
  (frames.map (fun f => (hm.compress f).length)).sum

/-- The per-file dedup step: if the dedup digest is not in the file index
(`if filekey not in d.fileidx`), compress the buffered content into
`.filedata` and register `(offset, size, uncompressed_size)`; otherwise
discard the buffer.  (`__contains__` checks the raw digest; `add3` packs it
to the index key width.) -/
def addFile (hm : HashModel) (kw : Nat) (c : List Nat) (st : AState) : AState :=
  let filekey := hm.idxhash c
  if (dlookup st.fileidx filekey).isSome then st
  else
    { st with
      frames := st.frames ++ [c]
      fileidx := dinsert st.fileidx (key_pack kw filekey)
        (framesSize hm st.frames, (hm.compress c).length, c.length) }

/-- `hdridx = {f: n for n, f in enumerate(fnames)}`: a dict comprehension, so
a repeated name keeps its *last* index. -/
def lastIndexOf : List Nat → Nat → Option Nat
  | [], _ => none
  | a :: rest, x =>
    match lastIndexOf rest x with
    | some i => some (i + 1)
    | none => if a = x then some 0 else none

/-- The header index an item resolves to: `n` when the payload name matches
`fnames[n]`, else `hdridx[item.name]`. -/
def resolveIdx (p : Pkg) (n : Nat) (it : PItem) : Option Nat :=
  match p.fnames[n]? with
  | none => none
  | some fn => if it.name = fn then some n else lastIndexOf p.fnames it.name

/-- The head of the loop body: `idx = n` when the payload name matches
`fnames[n]`, else `payload_in_order = False; idx = hdridx[item.name]`
(a missing name raises `KeyError`). -/
def resolveStep (p : Pkg) (n : Nat) (it : PItem) (fn : Nat) (io : Bool) :
    Except MErr (Nat × Bool) :=
  if it.name = fn then .ok (n, io)
  else
    match lastIndexOf p.fnames it.name with
    | some i => .ok (i, false)
    | none => .error .keyError

/-- The `for n, item in enumerate(r.payload_iter())` loop.  State: `n` the
item position, `st` the archive, `ord` the `payload_order` list, `io` the
`payload_in_order` flag. -/
def processItems (hm : HashModel) (kw : Nat) (p : Pkg) :
    Nat → List PItem → AState → List Nat → Bool →
    Except MErr (AState × List Nat × Bool)
  | _, [], st, ord, io => .ok (st, ord, io)
  | n, it :: rest, st, ord, io =>
    match p.fnames[n]? with
    | none => .error .indexError
    | some fn =>
      match resolveStep p n it fn io with
      | .error e => .error e
      | .ok (idx, io') =>
        if it.isreg ∧ it.content.length ≠ 0 then
          match p.digests[idx]? with
          | none => .error .indexError
          | some dd =>
            if hm.rpmhash p.rpmalgo it.content ≠ dd then .error .verify
            else processItems hm kw p (n + 1) rest (addFile hm kw it.content st)
              (ord ++ [idx]) io'
        else processItems hm kw p (n + 1) rest st (ord ++ [idx]) io'

/-- Python `hdr[-hdrsize:]` (with `hdr[-0:]` being the whole string). -/
def tailSlice (l : List Nat) (k : Nat) : List Nat :=
  if k = 0 then l else l.drop (l.length - k)

/-- `struct.pack('I', i)`: 4 little-endian bytes, `struct.error` beyond
32 bits. -/
def pack_u32_native (i : Nat) : Option (List Nat) :=
  if i < 2 ^ 32 then some ((List.range 4).map (fun j => i / 256 ^ j % 256)) else none

/-- `if not payload_in_order: hdr += b''.join(struct.pack('I', i) for i in
payload_order)`. -/
def annotate (ord : List Nat) (io : Bool) (hdr : List Nat) : Option (List Nat) :=
  if io then some hdr
  else (ord.mapM pack_u32_native).map (fun bs => hdr ++ bs.flatten)

/-- The signature-header digest check:
`if sigkey: sha256(hdr[-r.hdr.size:]) == sigkey`. -/
def sigCheck (hm : HashModel) (p : Pkg) : Bool :=
  match p.sig with
  | none => true
  | some s => hm.sha256 (tailSlice p.hdr p.hdrsize) == s

/-- The whole per-package body of the `merge_rpms` loop: process the payload
items, check the signature digest, append the (possibly order-annotated)
header to `.rpmhdr` and register its dedup digest in `.rpmhdr.idx`
(unconditionally — there is no `not in` check on this path). -/
def processPkg (hm : HashModel) (kw : Nat) (p : Pkg) (st : AState) :
    Except MErr AState :=
  match processItems hm kw p 0 p.items st [] true with
  | .error e => .error e
  | .ok (st1, ord, io) =>
    if sigCheck hm p then
      match annotate ord io p.hdr with
      | none => .error .structError
      | some hdrA =>
        .ok { st1 with
              hframes := st1.hframes ++ [hdrA]
              rpmidx := dinsert st1.rpmidx (key_pack kw (hm.idxhash hdrA))
                (framesSize hm st1.hframes, (hm.compress hdrA).length, hdrA.length) }
    else .error .verify

/-- The `for rpmfn in rpmiter` loop over all packages. -/
def processPkgs (hm : HashModel) (kw : Nat) :
    List Pkg → AState → Except MErr AState
  | [], st => .ok st
  | p :: rest, st =>
    match processPkg hm kw p st with
    | .error e => .error e
    | .ok st' => processPkgs hm kw rest st'

/-- What `merge_rpms` leaves at the output path: an exception during package
processing propagates *before* `open(outfile, 'wb')`, so no file is created;
once all packages verify, the output file is opened (created) and
`d.dino.write_to(outf)` runs. -/
inductive MergeResult where
  | noOutput (e : MErr)
  | outputOpened (st : AState)
deriving DecidableEq

def merge_rpms (hm : HashModel) (kw : Nat) (pkgs : List Pkg) : MergeResult :=
  match processPkgs hm kw pkgs AState.empty with
  | .error e => .noOutput e
  | .ok st => .outputOpened st

/-! ### Verification-failure behaviour (C6) -/

/-- A payload item whose recomputed digest does not match the digest the
header declares for it (a regular, non-empty file at position `n`). -/
def itemBad (hm : HashModel) (p : Pkg) (n : Nat) (it : PItem) : Prop :=
  it.isreg = true ∧ it.content.length ≠ 0 ∧
  ∃ idx dd, resolveIdx p n it = some idx ∧ p.digests[idx]? = some dd ∧
    hm.rpmhash p.rpmalgo it.content ≠ dd

/-- A package containing at least one corrupt file. -/
def pkgBad (hm : HashModel) (p : Pkg) : Prop :=
  ∃ n it, p.items[n]? = some it ∧ itemBad hm p n it

/-- Structural well-formedness of a package: every payload item resolves to
a header entry with a declared digest, the signature-header digest (when
present) matches, and header indices fit `struct.pack('I', ·)`.  This rules
out every exception of the per-package loop other than the file-digest
`VerifyError`. -/
def wfPkg (hm : HashModel) (p : Pkg) : Prop :=
  p.items.length ≤ p.fnames.length ∧
  p.digests.length = p.fnames.length ∧
  (∀ it ∈ p.items, it.name ∈ p.fnames) ∧
  sigCheck hm p = true ∧
  p.fnames.length < 2 ^ 32

theorem lastIndexOf_spec (x : Nat) :
    ∀ l i, lastIndexOf l x = some i → i < l.length ∧ l[i]? = some x := by
  intro l
  induction l with
  | nil => intro i h; simp [lastIndexOf] at h
  | cons a rest ih =>
    intro i h
    rw [lastIndexOf] at h
    match hrec : lastIndexOf rest x with
    | some j =>
      rw [hrec] at h
      obtain ⟨hj1, hj2⟩ := ih j hrec
      cases h
      constructor
      · simpa using Nat.succ_lt_succ hj1
      · simpa using hj2
    | none =>
      rw [hrec] at h
      by_cases ha : a = x
      · simp [ha] at h
        subst ha
        cases h
        simp
      · simp [ha] at h

theorem lastIndexOf_of_mem (x : Nat) :
    ∀ l, x ∈ l → ∃ i, lastIndexOf l x = some i := by
  intro l
  induction l with
  | nil => intro h; simp at h
  | cons a rest ih =>
    intro h
    rw [List.mem_cons] at h
    match hrec : lastIndexOf rest x with
    | some j => exact ⟨j + 1, by rw [lastIndexOf, hrec]⟩
    | none =>
      rcases h with h | h
      · exact ⟨0, by rw [lastIndexOf, hrec, if_pos h.symm]⟩
      · obtain ⟨j, hj⟩ := ih h
        rw [hj] at hrec
        cases hrec

/-- `mapM pack_u32_native` succeeds when every index fits 32 bits. -/
theorem mapM_pack_u32_some :
    ∀ l : List Nat, (∀ i ∈ l, i < 2 ^ 32) → ∃ bs, l.mapM pack_u32_native = some bs := by
  intro l
  induction l with
  | nil => intro _; exact ⟨[], rfl⟩
  | cons a rest ih =>
    intro h
    obtain ⟨bs, hbs⟩ := ih (fun i hi => h i (List.mem_cons_of_mem a hi))
    have ha : pack_u32_native a = some ((List.range 4).map (fun j => a / 256 ^ j % 256)) := by
      rw [pack_u32_native, if_pos (h a (List.mem_cons_self a rest))]
    refine ⟨(List.range 4).map (fun j => a / 256 ^ j % 256) :: bs, ?_⟩
    rw [List.mapM_cons, ha, hbs]
    rfl

/-- Stepping over one payload item that verifies: the loop advances with the
item's header index appended to `payload_order` (and stores the content when
it is a regular, non-empty file). -/
theorem processItems_cons_step (hm : HashModel) (kw : Nat) (p : Pkg) (n : Nat)
    (it : PItem) (rest : List PItem) (st : AState) (ord : List Nat) (io : Bool)
    (hn : n < p.fnames.length) (hmem : it.name ∈ p.fnames)
    (hdig : p.digests.length = p.fnames.length)
    (hgood : ¬ itemBad hm p n it) :
    ∃ idx io₂, resolveIdx p n it = some idx ∧ idx < p.fnames.length ∧
      processItems hm kw p n (it :: rest) st ord io =
        processItems hm kw p (n + 1) rest
          (if it.isreg ∧ it.content.length ≠ 0 then addFile hm kw it.content st else st)
          (ord ++ [idx]) io₂ := by
  obtain ⟨fn, hfn_eq⟩ : ∃ fn, p.fnames[n]? = some fn :=
    ⟨p.fnames[n], List.getElem?_eq_getElem hn⟩
  obtain ⟨idx, io₂, hstep, hres, hidx⟩ : ∃ idx io₂,
      resolveStep p n it fn io = .ok (idx, io₂) ∧
      resolveIdx p n it = some idx ∧ idx < p.fnames.length := by
    by_cases hname : it.name = fn
    · exact ⟨n, io, by rw [resolveStep, if_pos hname],
        by simp [resolveIdx, hfn_eq, hname], hn⟩
    · obtain ⟨i, hi⟩ := lastIndexOf_of_mem it.name p.fnames hmem
      obtain ⟨hi1, _⟩ := lastIndexOf_spec it.name p.fnames i hi
      exact ⟨i, false, by rw [resolveStep, if_neg hname, hi],
        by simp [resolveIdx, hfn_eq, hname, hi], hi1⟩
  refine ⟨idx, io₂, hres, hidx, ?_⟩
  rw [processItems, hfn_eq]
  simp only [hstep]
  by_cases hreg : it.isreg = true ∧ it.content.length ≠ 0
  · obtain ⟨dd, hdd⟩ : ∃ dd, p.digests[idx]? = some dd := by
      have hlt : idx < p.digests.length := by omega
      exact ⟨p.digests.get ⟨idx, hlt⟩, List.getElem?_eq_getElem hlt⟩
    have heq : hm.rpmhash p.rpmalgo it.content = dd := by
      by_contra hne
      exact hgood ⟨hreg.1, hreg.2, idx, dd, hres, hdd, hne⟩
    rw [if_pos hreg, if_pos hreg]
    rw [hdd]
    simp only [heq, ne_eq, not_true_eq_false, if_neg, if_false]
  · rw [if_neg hreg, if_neg hreg]

/-- Stepping over a corrupt payload item raises `VerifyError` at once. -/
theorem processItems_cons_bad (hm : HashModel) (kw : Nat) (p : Pkg) (n : Nat)
    (it : PItem) (rest : List PItem) (st : AState) (ord : List Nat) (io : Bool)
    (hbad : itemBad hm p n it) :
    processItems hm kw p n (it :: rest) st ord io = .error .verify := by
  obtain ⟨hreg, hne, idx, dd, hres, hdd, hmis⟩ := hbad
  obtain ⟨fn, hfn_eq⟩ : ∃ fn, p.fnames[n]? = some fn := by
    rw [resolveIdx] at hres
    match h : p.fnames[n]? with
    | some fn => exact ⟨fn, rfl⟩
    | none => rw [h] at hres; cases hres
  have hres' := hres
  rw [resolveIdx, hfn_eq] at hres'
  simp only at hres'
  have hstep : resolveStep p n it fn io = .ok (idx, io) ∨
      resolveStep p n it fn io = .ok (idx, false) := by
    by_cases hname : it.name = fn
    · rw [if_pos hname] at hres'
      cases hres'
      exact Or.inl (by rw [resolveStep, if_pos hname])
    · rw [if_neg hname] at hres'
      exact Or.inr (by rw [resolveStep, if_neg hname, hres'])
  rw [processItems, hfn_eq]
  rcases hstep with hstep | hstep <;>
    · simp only [hstep]
      rw [if_pos ⟨hreg, hne⟩, hdd]
      simp [hmis]

/-- A payload run over items that all verify succeeds, and every index it
appends to `payload_order` is a valid header index. -/
theorem processItems_ok (hm : HashModel) (kw : Nat) (p : Pkg) :
    ∀ (rest : List PItem) (n : Nat) (st : AState) (ord : List Nat) (io : Bool),
    (∀ k, k < rest.length → n + k < p.fnames.length) →
    (∀ it ∈ rest, it.name ∈ p.fnames) →
    p.digests.length = p.fnames.length →
    (∀ k it, rest[k]? = some it → ¬ itemBad hm p (n + k) it) →
    ∃ st' ord' io', processItems hm kw p n rest st ord io = .ok (st', ord', io') ∧
      (∀ i ∈ ord', i ∈ ord ∨ i < p.fnames.length) := by
  intro rest
  induction rest with
  | nil =>
    intro n st ord io _ _ _ _
    exact ⟨st, ord, io, by rw [processItems], fun i hi => Or.inl hi⟩
  | cons it rest ih =>
    intro n st ord io hfn hmem hdig hgood
    have hn : n < p.fnames.length := by
      have := hfn 0 (by simp)
      simpa using this
    have hheadgood : ¬ itemBad hm p n it := by
      have := hgood 0 it (by simp)
      simpa using this
    obtain ⟨idx, io₂, _, hidx, hstep⟩ :=
      processItems_cons_step hm kw p n it rest st ord io hn
        (hmem it (List.mem_cons_self it rest)) hdig hheadgood
    rw [hstep]
    obtain ⟨st', ord', io', heq, hord⟩ :=
      ih (n + 1)
        (if it.isreg ∧ it.content.length ≠ 0 then addFile hm kw it.content st else st)
        (ord ++ [idx]) io₂
        (fun k hk => by
          have := hfn (k + 1) (by simpa using Nat.succ_lt_succ hk)
          omega)
        (fun it' hit' => hmem it' (List.mem_cons_of_mem it hit'))
        hdig
        (fun k it' hk => by
          have := hgood (k + 1) it' (by simpa using hk)
          have harith : n + (k + 1) = n + 1 + k := by omega
          rwa [harith] at this)
    refine ⟨st', ord', io', heq, ?_⟩
    intro i hi
    rcases hord i hi with h | h
    · rcases List.mem_append.mp h with h2 | h2
      · exact Or.inl h2
      · have : i = idx := by simpa using h2
        exact Or.inr (this ▸ hidx)
    · exact Or.inr h

/-- A payload run over items one of which is corrupt (and the rest
well-formed) raises `VerifyError`. -/
theorem processItems_bad (hm : HashModel) (kw : Nat) (p : Pkg) :
    ∀ (rest : List PItem) (n : Nat) (st : AState) (ord : List Nat) (io : Bool),
    (∀ k, k < rest.length → n + k < p.fnames.length) →
    (∀ it ∈ rest, it.name ∈ p.fnames) →
    p.digests.length = p.fnames.length →
    (∃ k it, rest[k]? = some it ∧ itemBad hm p (n + k) it) →
    processItems hm kw p n rest st ord io = .error .verify := by
  intro rest
  induction rest with
  | nil =>
    intro n st ord io _ _ _ hbad
    obtain ⟨k, it, hk, _⟩ := hbad
    simp at hk
  | cons it rest ih =>
    intro n st ord io hfn hmem hdig hbad
    have hn : n < p.fnames.length := by
      have := hfn 0 (by simp)
      simpa using this
    by_cases hhead : itemBad hm p n it
    · exact processItems_cons_bad hm kw p n it rest st ord io hhead
    · obtain ⟨idx, io₂, _, _, hstep⟩ :=
        processItems_cons_step hm kw p n it rest st ord io hn
          (hmem it (List.mem_cons_self it rest)) hdig hhead
      rw [hstep]
      apply ih
      · intro k hk
        have := hfn (k + 1) (by simpa using Nat.succ_lt_succ hk)
        omega
      · exact fun it' hit' => hmem it' (List.mem_cons_of_mem it hit')
      · exact hdig
      · obtain ⟨k, it', hk, hbad'⟩ := hbad
        match k, hk with
        | 0, hk =>
          have hit : it = it' := by simpa using hk
          exact absurd (hit ▸ hbad') hhead
        | k' + 1, hk =>
          refine ⟨k', it', by simpa using hk, ?_⟩
          have harith : n + 1 + k' = n + (k' + 1) := by omega
          rwa [harith]

/-- A well-formed package with no corrupt file is processed successfully. -/
theorem processPkg_ok (hm : HashModel) (kw : Nat) (p : Pkg) (st : AState)
    (hwf : wfPkg hm p) (hgood : ¬ pkgBad hm p) :
    ∃ st', processPkg hm kw p st = .ok st' := by
  obtain ⟨hlen, hdig, hmem, hsig, h32⟩ := hwf
  obtain ⟨st1, ord, io, heq, hord⟩ :=
    processItems_ok hm kw p p.items 0 st [] true
      (fun k hk => by omega)
      (fun it hit => hmem it hit)
      hdig
      (fun k it hk => fun hbad => hgood ⟨k, it, by simpa using hk, by simpa using hbad⟩)
  rw [processPkg, heq]
  simp only [hsig, if_true]
  have hann : ∃ hdrA, annotate ord io p.hdr = some hdrA := by
    rw [annotate]
    by_cases hio : io = true
    · exact ⟨p.hdr, by rw [if_pos hio]⟩
    · obtain ⟨bs, hbs⟩ := mapM_pack_u32_some ord (fun i hi => by
        rcases hord i hi with h | h
        · simp at h
        · omega)
      exact ⟨p.hdr ++ bs.flatten, by rw [if_neg hio, hbs]; rfl⟩
  obtain ⟨hdrA, hA⟩ := hann
  rw [hA]
  exact ⟨_, rfl⟩

/-- A well-formed package with a corrupt file raises `VerifyError`. -/
theorem processPkg_bad (hm : HashModel) (kw : Nat) (p : Pkg) (st : AState)
    (hwf : wfPkg hm p) (hbad : pkgBad hm p) :
    processPkg hm kw p st = .error .verify := by
  obtain ⟨hlen, hdig, hmem, _, _⟩ := hwf
  obtain ⟨k, it, hk, hbad'⟩ := hbad
  rw [processPkg]
  rw [processItems_bad hm kw p p.items 0 st [] true
    (fun k hk => by omega)
    (fun it hit => hmem it hit)
    hdig
    ⟨k, it, hk, by simpa using hbad'⟩]

theorem processPkgs_bad (hm : HashModel) (kw : Nat) :
    ∀ (pkgs : List Pkg) (st : AState), (∀ p ∈ pkgs, wfPkg hm p) →
    (∃ p ∈ pkgs, pkgBad hm p) →
    processPkgs hm kw pkgs st = .error .verify := by
  intro pkgs
  induction pkgs with
  | nil =>
    intro st _ hbad
    simp at hbad
  | cons p rest ih =>
    intro st hwf hbad
    by_cases hp : pkgBad hm p
    · rw [processPkgs, processPkg_bad hm kw p st (hwf p (List.mem_cons_self p rest)) hp]
    · obtain ⟨st', hst'⟩ :=
        processPkg_ok hm kw p st (hwf p (List.mem_cons_self p rest)) hp
      rw [processPkgs, hst']
      apply ih st' (fun q hq => hwf q (List.mem_cons_of_mem p hq))
      obtain ⟨q, hq, hqbad⟩ := hbad
      rcases List.mem_cons.mp hq with rfl | hq'
      · exact absurd hqbad hp
      · exact ⟨q, hq', hqbad⟩

/-- **C6**: if some package's file content hashes differently from the
digest its header declares (all packages otherwise well-formed), the build
raises `VerifyError` before `open(outfile, 'wb')`: no file is created at the
output path.  (The output file is only opened once every package has
verified.) -/
theorem merge_rpms_bad_digest_no_output (hm : HashModel) (kw : Nat)
    (pkgs : List Pkg) (hwf : ∀ p ∈ pkgs, wfPkg hm p)
    (hbad : ∃ p ∈ pkgs, pkgBad hm p) :
    merge_rpms hm kw pkgs = .noOutput .verify := by
  rw [merge_rpms, processPkgs_bad hm kw pkgs AState.empty hwf hbad]

/-- A concrete hash model for witnesses: the dedup digest and compressor are
the identity, and every recomputed file digest is `[0]`. -/
def hmW : HashModel :=
  { rpmhash := fun _ _ => [0]
    idxhash := fun c => c
    sha256 := fun c => c
    compress := fun c => c }

/-- A concrete corrupt package: its one regular file `[1, 2]` hashes to
`[0]` under `hmW.rpmhash`, but the header declares digest `[9]`. -/
def pW : Pkg :=
  { fnames := [10]
    digests := [[9]]
    items := [⟨10, true, [1, 2]⟩]
    hdr := [3]
    hdrsize := 1
    sig := none
    rpmalgo := 0 }

/-- Witness for C6: merging the corrupt package `pW` raises `VerifyError`
with no file created at the output path. -/
theorem merge_rpms_bad_digest_no_output_witness :
    merge_rpms hmW 1 [pW] = .noOutput .verify := by
  apply merge_rpms_bad_digest_no_output
  · intro p hp
    simp only [List.mem_singleton] at hp
    subst hp
    exact ⟨by decide, by decide, by decide, by decide, by decide⟩
  · refine ⟨pW, by simp, 0, ⟨10, true, [1, 2]⟩, by decide, rfl, by decide, 0, [9],
      by decide, by decide, by decide⟩

/-! ### File-content deduplication (C5) -/

/-- The contents of all regular, non-empty payload files of a package run. -/
def allRegContents (pkgs : List Pkg) : List (List Nat) :=
  (pkgs.map (fun p =>
    (p.items.filter (fun it => it.isreg && it.content.length != 0)).map
      PItem.content)).flatten

/-- The package contains a regular, non-empty file with content `c`. -/
def pkgHasContent (p : Pkg) (c : List Nat) : Prop :=
  ∃ it ∈ p.items, it.isreg = true ∧ it.content.length ≠ 0 ∧ it.content = c

theorem mem_allRegContents {pkgs : List Pkg} {p : Pkg} {it : PItem}
    (hp : p ∈ pkgs) (hit : it ∈ p.items) (hreg : it.isreg = true)
    (hne : it.content.length ≠ 0) : it.content ∈ allRegContents pkgs := by
  rw [allRegContents, List.mem_flatten]
  refine ⟨(p.items.filter (fun it => it.isreg && it.content.length != 0)).map
    PItem.content, List.mem_map_of_mem _ hp, ?_⟩
  exact List.mem_map_of_mem _ (List.mem_filter.mpr ⟨hit, by simp [hreg, hne]⟩)

theorem dlookup_isSome_iff {α : Type} (m : List (List Nat × α)) (k : List Nat) :
    (dlookup m k).isSome = true ↔ k ∈ m.map Prod.fst := by
  induction m with
  | nil => simp [dlookup]
  | cons p rest ih =>
    rcases p with ⟨k', v'⟩
    by_cases h : k' = k
    · simp [dlookup, h]
    · simp [dlookup, h, ih, Ne.symm h]

theorem dinsert_fresh {α : Type} (m : List (List Nat × α)) (k : List Nat) (v : α)
    (h : k ∉ m.map Prod.fst) : dinsert m k v = m ++ [(k, v)] := by
  induction m with
  | nil => simp [dinsert]
  | cons p rest ih =>
    rcases p with ⟨k', v'⟩
    simp only [List.map_cons, List.mem_cons] at h
    push_neg at h
    rw [dinsert, if_neg (fun he => h.1 he.symm), ih h.2]
    rfl

/-- The dedup invariant of the `.filedata` section: the file-index keys are
exactly the packed dedup digests of the stored frames, in order; the packed
digests are pairwise distinct; and every stored frame is one of the run's
file contents `U`. -/
def FIdxInv (hm : HashModel) (kw : Nat) (U : List (List Nat)) (st : AState) : Prop :=
  st.fileidx.map Prod.fst = st.frames.map (fun f => key_pack kw (hm.idxhash f)) ∧
  (st.frames.map (fun f => key_pack kw (hm.idxhash f))).Nodup ∧
  ∀ f ∈ st.frames, f ∈ U

theorem addFile_frames_mono (hm : HashModel) (kw : Nat) (c : List Nat) (st : AState) :
    ∀ f ∈ st.frames, f ∈ (addFile hm kw c st).frames := by
  intro f hf
  rw [addFile]
  by_cases h : (dlookup st.fileidx (hm.idxhash c)).isSome
  · simpa [h] using hf
  · simp only [Bool.not_eq_true] at h
    simp [h, List.mem_append, hf]

theorem addFile_inv (hm : HashModel) (kw : Nat) (U : List (List Nat))
    (hlen : ∀ d ∈ U, (hm.idxhash d).length = kw)
    (hinj : ∀ d1 ∈ U, ∀ d2 ∈ U, hm.idxhash d1 = hm.idxhash d2 → d1 = d2)
    (c : List Nat) (hc : c ∈ U) (st : AState) (hinv : FIdxInv hm kw U st) :
    FIdxInv hm kw U (addFile hm kw c st) ∧ c ∈ (addFile hm kw c st).frames := by
  obtain ⟨hkeys, hnd, hU⟩ := hinv
  have hpack : key_pack kw (hm.idxhash c) = hm.idxhash c :=
    key_pack_of_length_eq (hlen c hc)
  rw [addFile]
  by_cases h : (dlookup st.fileidx (hm.idxhash c)).isSome
  · -- already stored: find the frame with the same digest; by injectivity it is `c`
    have hmem : hm.idxhash c ∈ st.fileidx.map Prod.fst :=
      (dlookup_isSome_iff st.fileidx (hm.idxhash c)).mp h
    rw [hkeys] at hmem
    obtain ⟨f, hf, hfe⟩ := List.mem_map.mp hmem
    have hfc : f = c := by
      have hlenf : key_pack kw (hm.idxhash f) = hm.idxhash f :=
        key_pack_of_length_eq (hlen f (hU f hf))

      exact hinj f (hU f hf) c hc (by rw [← hlenf, hfe])
    simp only [h, if_true]
    exact ⟨⟨hkeys, hnd, hU⟩, hfc ▸ hf⟩
  · -- fresh: append the frame and the index entry in lock step
    have hnotmem : key_pack kw (hm.idxhash c) ∉ st.fileidx.map Prod.fst := by
      rw [hpack]
      intro hmem
      exact h ((dlookup_isSome_iff st.fileidx (hm.idxhash c)).mpr hmem)
    simp only [h, if_false, Bool.false_eq_true]
    refine ⟨⟨?_, ?_, ?_⟩, by simp⟩
    · rw [dinsert_fresh _ _ _ hnotmem]
      simp [hkeys]
    · simp only [List.map_append, List.map_cons, List.map_nil]
      rw [List.nodup_append]
      refine ⟨hnd, by simp, ?_⟩
      intro k hk
      simp only [List.mem_singleton]
      intro hke
      rw [hkeys] at hnotmem
      exact hnotmem (hke ▸ hk)
    · intro f hf
      rcases List.mem_append.mp hf with hf | hf
      · exact hU f hf
      · simpa using List.mem_singleton.mp hf ▸ hc

/-- Processing payload items preserves the dedup invariant, only ever grows
the frame store, and leaves every processed regular file's content stored. -/
theorem processItems_inv (hm : HashModel) (kw : Nat) (p : Pkg)
    (U : List (List Nat)) (hlen : ∀ d ∈ U, (hm.idxhash d).length = kw)
    (hinj : ∀ d1 ∈ U, ∀ d2 ∈ U, hm.idxhash d1 = hm.idxhash d2 → d1 = d2) :
    ∀ (rest : List PItem) (n : Nat) (st : AState) (ord : List Nat) (io : Bool)
      (st' : AState) (ord' : List Nat) (io' : Bool),
    processItems hm kw p n rest st ord io = .ok (st', ord', io') →
    FIdxInv hm kw U st →
    (∀ it ∈ rest, it.isreg = true → it.content.length ≠ 0 → it.content ∈ U) →
    FIdxInv hm kw U st' ∧ (∀ f ∈ st.frames, f ∈ st'.frames) ∧
      (∀ it ∈ rest, it.isreg = true → it.content.length ≠ 0 →
        it.content ∈ st'.frames) := by
  intro rest
  induction rest with
  | nil =>
    intro n st ord io st' ord' io' hrun hinv _
    rw [processItems] at hrun
    cases hrun
    exact ⟨hinv, fun f hf => hf, by simp⟩
  | cons it rest ih =>
    intro n st ord io st' ord' io' hrun hinv hU
    rw [processItems] at hrun
    split at hrun
    · cases hrun
    · split at hrun
      · cases hrun
      · rename_i fn hfn idx io₂ hstep
        split at hrun
        · rename_i hreg
          split at hrun
          · cases hrun
          · rename_i dd hdd
            split at hrun
            · cases hrun
            · have hcU : it.content ∈ U :=
                hU it (List.mem_cons_self it rest) hreg.1 hreg.2
              obtain ⟨hinv', hcmem⟩ :=
                addFile_inv hm kw U hlen hinj it.content hcU st hinv
              obtain ⟨hinv'', hmono, hrest⟩ :=
                ih (n + 1) (addFile hm kw it.content st) (ord ++ [idx]) io₂
                  st' ord' io' hrun hinv'
                  (fun it' hit' => hU it' (List.mem_cons_of_mem it hit'))
              refine ⟨hinv'', ?_, ?_⟩
              · exact fun f hf => hmono f (addFile_frames_mono hm kw it.content st f hf)
              · intro it' hit' hr hn0
                rcases List.mem_cons.mp hit' with rfl | hit'
                · exact hmono it'.content hcmem
                · exact hrest it' hit' hr hn0
        · rename_i hreg
          obtain ⟨hinv', hmono, hrest⟩ :=
            ih (n + 1) st (ord ++ [idx]) io₂ st' ord' io' hrun hinv
              (fun it' hit' => hU it' (List.mem_cons_of_mem it hit'))
          refine ⟨hinv', hmono, ?_⟩
          intro it' hit' hr hn0
          rcases List.mem_cons.mp hit' with rfl | hit'
          · exact absurd ⟨hr, hn0⟩ hreg
          · exact hrest it' hit' hr hn0

/-- `processPkg` touches `.filedata` only through the payload loop: the
dedup invariant carries over and every regular file content of the package
is stored afterwards. -/
theorem processPkg_inv (hm : HashModel) (kw : Nat) (p : Pkg)
    (U : List (List Nat)) (hlen : ∀ d ∈ U, (hm.idxhash d).length = kw)
    (hinj : ∀ d1 ∈ U, ∀ d2 ∈ U, hm.idxhash d1 = hm.idxhash d2 → d1 = d2)
    (st st' : AState) (hrun : processPkg hm kw p st = .ok st')
    (hinv : FIdxInv hm kw U st)
    (hU : ∀ it ∈ p.items, it.isreg = true → it.content.length ≠ 0 →
      it.content ∈ U) :
    FIdxInv hm kw U st' ∧ (∀ f ∈ st.frames, f ∈ st'.frames) ∧
      (∀ it ∈ p.items, it.isreg = true → it.content.length ≠ 0 →
        it.content ∈ st'.frames) := by
  rw [processPkg] at hrun
  split at hrun
  · cases hrun
  · rename_i st1 ord io hitems
    split at hrun
    · split at hrun
      · cases hrun
      · rename_i hdrA hann
        cases hrun
        obtain ⟨hinv', hmono, hrest⟩ :=
          processItems_inv hm kw p U hlen hinj p.items 0 st [] true st1 ord io
            hitems hinv hU
        exact ⟨hinv', hmono, hrest⟩
    · cases hrun

theorem processPkgs_inv (hm : HashModel) (kw : Nat) (allpkgs : List Pkg)
    (hlen : ∀ d ∈ allRegContents allpkgs, (hm.idxhash d).length = kw)
    (hinj : ∀ d1 ∈ allRegContents allpkgs, ∀ d2 ∈ allRegContents allpkgs,
      hm.idxhash d1 = hm.idxhash d2 → d1 = d2) :
    ∀ (pkgs : List Pkg) (st st' : AState),
    (∀ p ∈ pkgs, p ∈ allpkgs) →
    processPkgs hm kw pkgs st = .ok st' →
    FIdxInv hm kw (allRegContents allpkgs) st →
    FIdxInv hm kw (allRegContents allpkgs) st' ∧
      (∀ f ∈ st.frames, f ∈ st'.frames) ∧
      (∀ p ∈ pkgs, ∀ it ∈ p.items, it.isreg = true → it.content.length ≠ 0 →
        it.content ∈ st'.frames) := by
  intro pkgs
  induction pkgs with
  | nil =>
    intro st st' _ hrun hinv
    rw [processPkgs] at hrun
    cases hrun
    exact ⟨hinv, fun f hf => hf, by simp⟩
  | cons p rest ih =>
    intro st st' hsub hrun hinv
    rw [processPkgs] at hrun
    split at hrun
    · cases hrun
    · rename_i st1 hst1
      have hpU : ∀ it ∈ p.items, it.isreg = true → it.content.length ≠ 0 →
          it.content ∈ allRegContents allpkgs := fun it hit hr hn =>
        mem_allRegContents (hsub p (List.mem_cons_self p rest)) hit hr hn
      obtain ⟨hinv1, hmono1, hp1⟩ :=
        processPkg_inv hm kw p _ hlen hinj st st1 hst1 hinv hpU
      obtain ⟨hinv2, hmono2, hp2⟩ :=
        ih st1 st' (fun q hq => hsub q (List.mem_cons_of_mem p hq)) hrun hinv1
      refine ⟨hinv2, fun f hf => hmono2 f (hmono1 f hf), ?_⟩
      intro q hq it hit hr hn
      rcases List.mem_cons.mp hq with rfl | hq'
      · exact hmono2 it.content (hp1 it hit hr hn)
      · exact hp2 q hq' it hit hr hn

/-- **C5**: merging two packages that each contain a regular file with
byte-identical content `c` stores exactly one `.filedata` frame for `c` and
exactly one file-index entry for its dedup digest (the second package's
buffered copy is discarded). -/
theorem filter_eq_length_one {α : Type} [DecidableEq α] :
    ∀ {l : List α} {a : α}, l.Nodup → a ∈ l →
      (l.filter (fun x => x = a)).length = 1 := by
  intro l
  induction l with
  | nil => intro a _ ha; simp at ha
  | cons b l ih =>
    intro a hnd ha
    rw [List.nodup_cons] at hnd
    rcases List.mem_cons.mp ha with rfl | ha'
    · rw [List.filter_cons]
      have hnil : l.filter (fun x => x = a) = [] :=
        List.filter_eq_nil_iff.mpr (fun x hx => by
          simp only [decide_eq_true_eq]
          exact fun he => hnd.1 (he ▸ hx))
      simp [hnil]
    · rw [List.filter_cons]
      have hb : ¬(b = a) := fun he => hnd.1 (he ▸ ha')
      simp only [hb, decide_eq_true_eq, if_neg hb]
      exact ih hnd.2 ha'

/-- **C5**: merging two packages that each contain a regular file with
byte-identical content `c` stores exactly one `.filedata` frame for `c` and
exactly one file-index entry for its dedup digest (the second package's
buffered copy is discarded). -/
theorem merge_dedup (hm : HashModel) (kw : Nat) (p1 p2 : Pkg) (c : List Nat)
    (st : AState)
    (hlen : ∀ d ∈ allRegContents [p1, p2], (hm.idxhash d).length = kw)
    (hinj : ∀ d1 ∈ allRegContents [p1, p2], ∀ d2 ∈ allRegContents [p1, p2],
      hm.idxhash d1 = hm.idxhash d2 → d1 = d2)
    (hc1 : pkgHasContent p1 c) (hc2 : pkgHasContent p2 c)
    (hrun : processPkgs hm kw [p1, p2] AState.empty = .ok st) :
    (st.frames.filter (fun f => f = c)).length = 1 ∧
    ((st.fileidx.map Prod.fst).filter
      (fun k => k = key_pack kw (hm.idxhash c))).length = 1 := by
  have hinv0 : FIdxInv hm kw (allRegContents [p1, p2]) AState.empty :=
    ⟨rfl, by simp [AState.empty], by simp [AState.empty]⟩
  obtain ⟨⟨hkeys, hnd, _⟩, _, hstored⟩ :=
    processPkgs_inv hm kw [p1, p2] hlen hinj [p1, p2] AState.empty st
      (fun q hq => hq) hrun hinv0
  obtain ⟨it, hit, hr, hn, hcontent⟩ := hc1
  have hcmem : c ∈ st.frames := by
    have := hstored p1 (by simp) it hit hr hn
    rwa [hcontent] at this
  have hfnd : st.frames.Nodup := List.Nodup.of_map _ hnd
  constructor
  · exact filter_eq_length_one hfnd hcmem
  · rw [hkeys]
    exact filter_eq_length_one hnd
      (List.mem_map_of_mem (fun f => key_pack kw (hm.idxhash f)) hcmem)

/-- An identity hash model for witnesses: every digest is the content
itself (injective) and compression is the identity. -/
def hmI : HashModel :=
  { rpmhash := fun _ c => c
    idxhash := fun c => c
    sha256 := fun c => c
    compress := fun c => c }

/-- A one-file package whose file `[5]` verifies under `hmI`. -/
def pA : Pkg :=
  { fnames := [1]
    digests := [[5]]
    items := [⟨1, true, [5]⟩]
    hdr := [1]
    hdrsize := 1
    sig := none
    rpmalgo := 0 }

/-- Like `pA` but with different header bytes — same file content. -/
def pB : Pkg :=
  { fnames := [1]
    digests := [[5]]
    items := [⟨1, true, [5]⟩]
    hdr := [2]
    hdrsize := 1
    sig := none
    rpmalgo := 0 }

/-- The archive state after merging `pA` and `pB` under `hmI`. -/
def stAB : AState :=
  { frames := [[5]]
    fileidx := [([5], (0, 1, 1))]
    hframes := [[1], [2]]
    rpmidx := [([1], (0, 1, 1)), ([2], (1, 1, 1))] }

/-- Witness for C5: packing `pA` and `pB`, which share file content `[5]`,
leaves one frame and one index entry for it. -/
theorem merge_dedup_witness :
    ((stAB.frames.filter (fun f => f = [5])).length = 1 ∧
      ((stAB.fileidx.map Prod.fst).filter
        (fun k => k = key_pack 1 (hmI.idxhash [5]))).length = 1) :=
  merge_dedup hmI 1 pA pB [5] stAB (by decide) (by decide)
    ⟨⟨1, true, [5]⟩, by decide, rfl, by decide, rfl⟩
    ⟨⟨1, true, [5]⟩, by decide, rfl, by decide, rfl⟩ (by rfl)

/-! ### Header storage (C9) -/

theorem addFile_hdr (hm : HashModel) (kw : Nat) (c : List Nat) (st : AState) :
    (addFile hm kw c st).hframes = st.hframes ∧
    (addFile hm kw c st).rpmidx = st.rpmidx := by
  rw [addFile]
  by_cases h : (dlookup st.fileidx (hm.idxhash c)).isSome <;> simp [h]

/-- The payload loop never touches the `.rpmhdr` sections. -/
theorem processItems_hdr (hm : HashModel) (kw : Nat) (p : Pkg) :
    ∀ (rest : List PItem) (n : Nat) (st : AState) (ord : List Nat) (io : Bool)
      (st' : AState) (ord' : List Nat) (io' : Bool),
    processItems hm kw p n rest st ord io = .ok (st', ord', io') →
    st'.hframes = st.hframes ∧ st'.rpmidx = st.rpmidx := by
  intro rest
  induction rest with
  | nil =>
    intro n st ord io st' ord' io' hrun
    rw [processItems] at hrun
    cases hrun
    exact ⟨rfl, rfl⟩
  | cons it rest ih =>
    intro n st ord io st' ord' io' hrun
    rw [processItems] at hrun
    split at hrun
    · cases hrun
    · split at hrun
      · cases hrun
      · rename_i fn hfn idx io₂ hstep
        split at hrun
        · split at hrun
          · cases hrun
          · split at hrun
            · cases hrun
            · have := ih (n + 1) (addFile hm kw it.content st) (ord ++ [idx]) io₂
                st' ord' io' hrun
              obtain ⟨h1, h2⟩ := addFile_hdr hm kw it.content st
              exact ⟨this.1.trans h1, this.2.trans h2⟩
        · exact ih (n + 1) st (ord ++ [idx]) io₂ st' ord' io' hrun

/-- The `(payload_order, payload_in_order)` a successful payload run
computes does not depend on the archive state. -/
theorem processItems_st_irrelevant (hm : HashModel) (kw : Nat) (p : Pkg) :
    ∀ (rest : List PItem) (n : Nat) (st : AState) (ord : List Nat) (io : Bool)
      (st' : AState) (ord' : List Nat) (io' : Bool),
    processItems hm kw p n rest st ord io = .ok (st', ord', io') →
    ∀ st2, ∃ st2', processItems hm kw p n rest st2 ord io = .ok (st2', ord', io') := by
  intro rest
  induction rest with
  | nil =>
    intro n st ord io st' ord' io' hrun st2
    rw [processItems] at hrun
    cases hrun
    exact ⟨st2, by rw [processItems]⟩
  | cons it rest ih =>
    intro n st ord io st' ord' io' hrun st2
    rw [processItems] at hrun
    split at hrun
    · cases hrun
    · split at hrun
      · cases hrun
      · rename_i fnv hfn stepv idx io₂ hstep
        split at hrun
        · rename_i hreg
          split at hrun
          · cases hrun
          · rename_i dd hdd
            split at hrun
            · cases hrun
            · rename_i hmis
              obtain ⟨st2', h2⟩ :=
                ih (n + 1) (addFile hm kw it.content st) (ord ++ [idx]) io₂
                  st' ord' io' hrun (addFile hm kw it.content st2)
              refine ⟨st2', ?_⟩
              rw [processItems]
              simp only [hfn, hstep]
              rw [if_pos hreg]
              simp only [hdd]
              rw [if_neg hmis]
              exact h2
        · rename_i hreg
          obtain ⟨st2', h2⟩ :=
            ih (n + 1) st (ord ++ [idx]) io₂ st' ord' io' hrun st2
          refine ⟨st2', ?_⟩
          rw [processItems]
          simp only [hfn, hstep]
          rw [if_neg hreg]
          exact h2

/-- A successful `processPkg` appends exactly one frame — the (possibly
order-annotated) header bytes, which depend on the package alone — to the
`.rpmhdr` store and makes one dict insertion under its dedup digest, from
any starting state. -/
theorem processPkg_hdr (hm : HashModel) (kw : Nat) (p : Pkg) (st st' : AState)
    (hrun : processPkg hm kw p st = .ok st') :
    ∃ hdrA,
      st'.hframes = st.hframes ++ [hdrA] ∧
      st'.rpmidx = dinsert st.rpmidx (key_pack kw (hm.idxhash hdrA))
        (framesSize hm st.hframes, (hm.compress hdrA).length, hdrA.length) ∧
      ∀ st2 st2', processPkg hm kw p st2 = .ok st2' →
        st2'.hframes = st2.hframes ++ [hdrA] ∧
        st2'.rpmidx = dinsert st2.rpmidx (key_pack kw (hm.idxhash hdrA))
          (framesSize hm st2.hframes, (hm.compress hdrA).length, hdrA.length) := by
  rw [processPkg] at hrun
  split at hrun
  · cases hrun
  · rename_i st1 ord io hitems
    split at hrun
    · rename_i hsig
      split at hrun
      · cases hrun
      · rename_i hdrA hann
        cases hrun
        obtain ⟨hhf, hri⟩ := processItems_hdr hm kw p p.items 0 st [] true st1 ord io hitems
        refine ⟨hdrA, by simp [hhf], by simp [hhf, hri], ?_⟩
        intro st2 st2' hrun2
        rw [processPkg] at hrun2
        match hitems2 : processItems hm kw p 0 p.items st2 [] true with
        | .error e => simp [hitems2] at hrun2
        | .ok (st21, ord2, io2) =>
          simp only [hitems2] at hrun2
          obtain ⟨st21', hdet⟩ :=
            processItems_st_irrelevant hm kw p p.items 0 st2 [] true st21 ord2 io2
              hitems2 st
          rw [hitems] at hdet
          -- both runs over the same package compute the same (ord, io)
          have ho : ord2 = ord := by cases hdet; rfl
          have hi : io2 = io := by cases hdet; rfl
          rw [ho, hi, if_pos hsig] at hrun2
          simp only [hann] at hrun2
          cases hrun2
          obtain ⟨hhf2, hri2⟩ :=
            processItems_hdr hm kw p p.items 0 st2 [] true st21 ord2 io2 hitems2
          exact ⟨by simp [hhf2], by simp [hhf2, hri2]⟩
    · cases hrun

/-- **C9** (amended): merging two packages with identical header bytes
appends the compressed header frame *twice* — once per package, with no
dedup check on this path — while the header index holds a single entry for
the header's dedup digest (the second insertion overwrites the first). -/
theorem merge_same_header (hm : HashModel) (kw : Nat) (p : Pkg) (st : AState)
    (hrun : processPkgs hm kw [p, p] AState.empty = .ok st) :
    ∃ a, st.hframes = [a, a] ∧
      st.rpmidx.map Prod.fst = [key_pack kw (hm.idxhash a)] := by
  rw [processPkgs] at hrun
  split at hrun
  · cases hrun
  · rename_i st1 hst1
    rw [processPkgs] at hrun
    split at hrun
    · cases hrun
    · rename_i st2 hst2
      rw [processPkgs] at hrun
      cases hrun
      obtain ⟨a, hf1, hr1, hdet⟩ := processPkg_hdr hm kw p AState.empty st1 hst1
      obtain ⟨hf2, hr2⟩ := hdet st1 st hst2
      refine ⟨a, ?_, ?_⟩
      · rw [hf2, hf1]
        rfl
      · rw [hr2, hr1]
        simp [AState.empty, dinsert]

/-- The archive state after merging `pA` twice under `hmI`. -/
def stAA : AState :=
  { frames := [[5]]
    fileidx := [([5], (0, 1, 1))]
    hframes := [[1], [1]]
    rpmidx := [([1], (1, 1, 1))] }

/-- **C9** (counterexample to the claim as stated): merging two packages
with byte-identical headers stores the header frame twice in the
`.rpmhdr` blob — not once — though the index has a single entry. -/
theorem rpmhdr_stored_twice :
    processPkgs hmI 1 [pA, pA] AState.empty = .ok stAA ∧
    (stAA.hframes.filter (fun f => f = pA.hdr)).length = 2 ∧
    stAA.rpmidx.length = 1 := by
  refine ⟨rfl, by decide, rfl⟩

/-- Witness for the amended C9 at the concrete run `[pA, pA]`. -/
theorem merge_same_header_witness :
    ∃ a, stAA.hframes = [a, a] ∧
      stAA.rpmidx.map Prod.fst = [key_pack 1 (hmI.idxhash a)] :=
  merge_same_header hmI 1 pA stAA (by rfl)

/-! ## dino/section.py — `IndexSection.write_to` / `from_file` at byte level

The value struct is `Struct(f'{endian}{valfmt}')` with
`valfmt = ('L' if off64 else 'I') * (3 if unc_size else 2)`; with an
explicit endian prefix both `'L'` and `'I'` are standard-size 4-byte
fields, so `off64` does not actually widen anything (64-bit support is an
acknowledged gap in the source). -/

/-- Little-endian fixed-width byte encoding of `n`. -/
def pack_fixed_le (width n : Nat) : List Nat :=
  (List.range width).map (fun i => n / 256 ^ i % 256)

def pack_fixed (le : Bool) (width n : Nat) : List Nat :=
  if le then pack_fixed_le width n else (pack_fixed_le width n).reverse

/-- The encoding configuration of an `IndexSection`. -/
structure IndexCfg where
  endianLe : Bool := true
  fanout : Bool := true
  varint : Bool := false
  off64 : Bool := false
  unc_size : Bool := true
  keysize : Nat := 32
deriving DecidableEq

def valArity (cfg : IndexCfg) : Nat := if cfg.unc_size then 3 else 2

/-- `self._val_s.pack(*v)`: `struct.error` (`none`) on an arity mismatch or
a value beyond 32 bits. -/
def pack_val (cfg : IndexCfg) (v : List Nat) : Option (List Nat) :=
  if v.length = valArity cfg ∧ v.all (fun n => n < 2 ^ 32) then
    some ((v.map (pack_fixed cfg.endianLe 4)).flatten)
  else none

/-- `self._varint_pack(*values)`. -/
def varint_pack (v : List Nat) : List Nat := (v.map varint_encode).flatten

/-- `make_fanout` with `self.varint`: per-byte counts, each varint-encoded
(not a running total). -/
def make_fanout_varint (keys : List (List Nat)) : List Nat :=
  ((List.range 256).map (fun b => varint_encode (leadCount keys b))).flatten

/-- `make_fanout` as bytes: the varint count sequence, or the 256 packed
32-bit running totals. -/
def make_fanout_bytes (cfg : IndexCfg) (keys : List (List Nat)) : Option (List Nat) :=
  if cfg.varint then some (make_fanout_varint keys)
  else (make_fanout keys).map (fun entries =>
    (entries.map (pack_fixed cfg.endianLe 4)).flatten)

/-- `IndexSection.write_to`: nothing for an empty index, else the fanout
table (when enabled), the sorted packed keys, and the packed values. -/
def IndexSection.write_to (cfg : IndexCfg) (m : List (List Nat × List Nat)) :
    Option (List Nat) :=
  if m.length = 0 then some []
  else
    match (if cfg.fanout then make_fanout_bytes cfg (m.map Prod.fst) else some []) with
    | none => none
    | some fanoutBytes =>
      let sorted := sorted_items m
      let keyBytes := (sorted.map (fun pr => key_pack cfg.keysize pr.1)).flatten
      match (if cfg.varint then some (sorted.map (fun pr => varint_pack pr.2))
             else sorted.mapM (fun pr => pack_val cfg pr.2)) with
      | none => none
      | some valChunks => some (fanoutBytes ++ keyBytes ++ valChunks.flatten)

/-- `Struct.iter_unpack` grouping: split into `w`-byte chunks. -/
def chunks (w : Nat) (l : List Nat) : List (List Nat) :=
  if h : w = 0 ∨ l = [] then [] else l.take w :: chunks w (l.drop w)
termination_by l.length
decreasing_by
  push_neg at h
  have h1 : 0 < l.length := List.length_pos.mpr h.2
  have h2 : 0 < w := Nat.pos_of_ne_zero h.1
  simp only [List.length_drop]
  omega

/-- Fixed-width unsigned decode (the inverse of `pack_fixed`). -/
def unpack_fixed (le : Bool) (bytes : List Nat) : Nat :=
  (if le then bytes else bytes.reverse).foldr (fun c acc => c + 256 * acc) 0

def unpack_u32s (le : Bool) (data : List Nat) : List Nat :=
  (chunks 4 data).map (unpack_fixed le)

theorem varint_decode_go_n_le :
    ∀ (rest : List Nat) (b val n v n' : Nat),
    varint_decode_go b val n rest = some (v, n') → n ≤ n' := by
  intro rest
  induction rest with
  | nil =>
    intro b val n v n' h
    rw [varint_decode_go.eq_def] at h
    by_cases hb : b &&& 128 = 0
    · simp [hb] at h
      omega
    · by_cases hc : val &&& VARINT_MS7B_MASK ≠ 0 <;> simp [hb, hc] at h
  | cons b' rest' ih =>
    intro b val n v n' h
    rw [varint_decode_go.eq_def] at h
    by_cases hb : b &&& 128 = 0
    · simp [hb] at h
      omega
    · by_cases hc : val &&& VARINT_MS7B_MASK ≠ 0
      · simp [hb, hc] at h
      · simp [hb, hc] at h
        have := ih _ _ _ _ _ h
        omega

theorem varint_decode_n_pos {l : List Nat} {v n : Nat}
    (h : varint_decode l = some (v, n)) : 1 ≤ n := by
  match l with
  | [] => rw [varint_decode] at h; cases h
  | b :: rest =>
    rw [varint_decode] at h
    exact varint_decode_go_n_le rest b (b &&& 127) 1 v n h

/-- `varint_iter_decode` over a whole buffer: `none` when a decode raises
or the buffer ends inside a varint. -/
def varintDecodeAll (l : List Nat) : Option (List Nat) :=
  if hl : l = [] then some []
  else
    match hd : varint_decode l with
    | none => none
    | some (v, n) => (varintDecodeAll (l.drop n)).map (fun vs => v :: vs)
termination_by l.length
decreasing_by
  have h1 : 1 ≤ n := varint_decode_n_pos hd
  have h2 : 0 < l.length := List.length_pos.mpr hl
  simp only [List.length_drop]
  omega

/-- `dict(zip(keys, vals))`: insertion in order, later duplicates win. -/
def mkDict (prs : List (List Nat × List Nat)) : List (List Nat × List Nat) :=
  prs.foldl (fun m kv => dinsert m kv.1 kv.2) []

/-- `IndexSection.from_file(fobj, size, count)` on the `size` bytes read.
In the fanout+varint branch the source appends to a local list `fanout`
that is never initialized, so any non-empty data raises
`UnboundLocalError` (`none`). -/
def IndexSection.from_file (cfg : IndexCfg) (count : Nat) (data : List Nat) :
    Option (List (List Nat × List Nat)) :=
  if data.length = 0 then some []
  else if cfg.fanout ∧ cfg.varint then none
  else
    let keypos := if cfg.fanout then 1024 else 0
    if cfg.fanout ∧ data.length < 1024 then none
    else
      let fanoutList := unpack_u32s cfg.endianLe (data.take 1024)
      if cfg.fanout ∧ count ≠ 0 ∧ fanoutList.getLast? ≠ some count then none
      else
        let keylen := cfg.keysize * count
        let keydata := (data.drop keypos).take keylen
        let valdata := data.drop (keypos + keylen)
        if cfg.keysize = 0 ∨ keydata.length % cfg.keysize ≠ 0 then none
        else
          let keys := chunks cfg.keysize keydata
          if cfg.varint then
            match varintDecodeAll valdata with
            | none => none
            | some vals =>
              if count = 0 then none
              else if vals.length % count ≠ 0 then none
              else some (mkDict (keys.zip (chunks (vals.length / count) vals)))
          else
            if valdata.length % (4 * valArity cfg) ≠ 0 then none
            else
              some (mkDict (keys.zip ((chunks (4 * valArity cfg) valdata).map
                (fun ch => (chunks 4 ch).map (unpack_fixed cfg.endianLe)))))

theorem varint_encode_ne_nil (v : Nat) : varint_encode v ≠ [] := by
  show varint_encode_aux ((v % 2 ^ 64) >>> 7) [(v % 2 ^ 64) &&& 127] ≠ []
  rw [varint_encode_aux_append]
  simp

/-- **C2** (the code bug, evaluated): for any varint index with the fanout
table enabled and at least one entry, `write_to` emits a non-empty byte
string that `from_file` can never read back — the read path raises
`UnboundLocalError` — so `get` cannot return any inserted value after the
round trip. -/
theorem index_varint_fanout_roundtrip_crash (cfg : IndexCfg)
    (m : List (List Nat × List Nat)) (hv : cfg.varint = true)
    (hf : cfg.fanout = true) (hm : m ≠ []) :
    ∃ bs, IndexSection.write_to cfg m = some bs ∧ bs ≠ [] ∧
      IndexSection.from_file cfg m.length bs = none := by
  have hlen : m.length ≠ 0 := fun h => hm (List.length_eq_zero.mp h)
  have hfan : make_fanout_bytes cfg (m.map Prod.fst) =
      some (make_fanout_varint (m.map Prod.fst)) := by
    rw [make_fanout_bytes, if_pos hv]
  refine ⟨make_fanout_varint (m.map Prod.fst) ++
      ((sorted_items m).map (fun pr => key_pack cfg.keysize pr.1)).flatten ++
      ((sorted_items m).map (fun pr => varint_pack pr.2)).flatten, ?_, ?_, ?_⟩
  · rw [IndexSection.write_to]
    simp [hlen, hf, hv, hfan]
  · intro hnil
    rw [List.append_assoc] at hnil
    obtain ⟨h1, _⟩ := List.append_eq_nil.mp hnil
    have h256 : List.range 256 = 0 :: (List.range 255).map Nat.succ :=
      List.range_succ_eq_map 255
    rw [make_fanout_varint, h256] at h1
    simp only [List.map_cons, List.flatten_cons] at h1
    obtain ⟨h2, _⟩ := List.append_eq_nil.mp h1
    exact varint_encode_ne_nil _ h2
  · rw [IndexSection.from_file]
    have hne : (make_fanout_varint (m.map Prod.fst) ++
        ((sorted_items m).map (fun pr => key_pack cfg.keysize pr.1)).flatten ++
        ((sorted_items m).map (fun pr => varint_pack pr.2)).flatten).length ≠ 0 := by
      simp only [List.length_append, make_fanout_varint]
      have h256 : List.range 256 = 0 :: (List.range 255).map Nat.succ :=
        List.range_succ_eq_map 255
      rw [h256]
      simp only [List.map_cons, List.flatten_cons, List.length_append]
      have := varint_encode_ne_nil (leadCount (m.map Prod.fst) 0)
      have hpos : 0 < (varint_encode (leadCount (m.map Prod.fst) 0)).length :=
        List.length_pos.mpr this
      omega
    rw [if_neg hne, if_pos ⟨hf, hv⟩]

/-- Witness for the C2 crash at a one-entry varint index. -/
theorem index_varint_fanout_roundtrip_crash_witness :
    ∃ bs,
      IndexSection.write_to ⟨true, true, true, false, true, 1⟩ [([5], [0, 1, 1])] =
        some bs ∧ bs ≠ [] ∧
      IndexSection.from_file ⟨true, true, true, false, true, 1⟩ 1 bs = none := by
  have h := index_varint_fanout_roundtrip_crash ⟨true, true, true, false, true, 1⟩
    [([5], [0, 1, 1])] rfl rfl (by decide)
  simpa using h

/-! ## dino/struct.py + dino/__init__.py — the container envelope

`Dhdrp` and `Shdrp` are little-endian `StructParser`s (struct.py declares
both with `endian='little'`, and `pack_dhdr` / `pack_hdr` go through the
base `._struct` objects).  Python `struct` values are typed: the `'4s'`
format accepts only a `bytes` object and byte strings never compare equal
to ints, which is what decides claim C1. -/

/-- A Python value handed to `struct.pack` / compared by `parse_val`. -/
inductive PyVal where
  | int (n : Nat)
  | bytes (b : List Nat)
deriving DecidableEq

/-- The `struct` format characters the DINO headers use. -/
inductive Fmt where
  | s4
  | byte
  | half
  | word
deriving DecidableEq

/-- `struct.pack` of one field: `'4s'` pads/truncates a bytes object to 4
bytes and raises (`none`) for an int ("argument for 's' must be a bytes
object"); `'B'`/`'H'`/`'I'` take an in-range int and raise for a bytes
object ("required argument is not an integer"). -/
def pack_field : Fmt → PyVal → Option (List Nat)
  | .s4, .bytes b => some (b.take 4 ++ List.replicate (4 - b.length) 0)
  | .s4, .int _ => none
  | .byte, .int n => if n < 2 ^ 8 then some [n] else none
  | .half, .int n => if n < 2 ^ 16 then some (pack_fixed_le 2 n) else none
  | .word, .int n => if n < 2 ^ 32 then some (pack_fixed_le 4 n) else none
  | .byte, .bytes _ => none
  | .half, .bytes _ => none
  | .word, .bytes _ => none

/-- `Struct(fmt).pack(*vals)`: arity checked, then fields packed in order. -/
def packStruct (fmts : List Fmt) (vals : List PyVal) : Option (List Nat) :=
  if fmts.length ≠ vals.length then none
  else ((fmts.zip vals).mapM (fun fv => pack_field fv.1 fv.2)).map List.flatten

/-- The `Dhdr` field formats: magic `4s`, version/arch/encoding/objtype/
compression_id/compression_opts/reserved/section_count `B`, sectab_size and
namtab_size `H`. -/
def dhdrFmts : List Fmt :=
  [.s4, .byte, .byte, .byte, .byte, .byte, .byte, .byte, .byte, .half, .half]

/-- The `Shdr` field formats: name `H`, stype `B`, flags `B`, info `I`,
size `I`, count `I` (16 bytes). -/
def shdrFmts : List Fmt := [.half, .byte, .byte, .word, .word, .word]

def MAGIC_V0 : Nat := 0xedabeef0

/-- A section as the container serializes it: its header fields (`size` and
`count` are whatever the section's properties report) and the bytes its
`write_to` emits. -/
structure Sec where
  name_idx : Nat := 0
  typeid : Nat := 0
  flags : Nat := 0
  info : Nat := 0
  size : Nat := 0
  count : Nat := 0
  data : List Nat := []
deriving DecidableEq

/-- `BaseSection.pack_hdr`. -/
def Sec.pack_hdr (s : Sec) : Option (List Nat) :=
  packStruct shdrFmts
    [.int s.name_idx, .int s.typeid, .int s.flags, .int s.info, .int s.size,
     .int s.count]

/-- An in-memory `DINO` container. -/
structure DINOFile where
  arch : Nat := 0
  encoding : Nat := 0
  objtype : Nat := 0
  compression_id : Nat := 0
  compression_opts : Nat := 0
  sectab : List Sec := []
  namtab : List Nat := []
deriving DecidableEq

/-- `DINO.pack_dhdr`: the *integer* `self.MAGIC` is passed for the `'4s'`
magic field (`Shdrp.structsize = 16`, hence `sectab_size = 16·n`). -/
def DINO.pack_dhdr (d : DINOFile) : Option (List Nat) :=
  packStruct dhdrFmts
    [.int MAGIC_V0, .int 0, .int d.arch, .int d.encoding, .int d.objtype,
     .int d.compression_id, .int d.compression_opts, .int 0,
     .int d.sectab.length, .int (d.sectab.length * 16), .int d.namtab.length]

/-- `DINO.pack_hdrs`: dhdr, then the section headers, then the name table. -/
def DINO.pack_hdrs (d : DINOFile) : Option (List Nat) :=
  match DINO.pack_dhdr d with
  | none => none
  | some dh =>
    match d.sectab.mapM Sec.pack_hdr with
    | none => none
    | some shs => some (dh ++ shs.flatten ++ d.namtab)

/-- `DINO.write_to`: the headers followed by each section's data, in table
order. -/
def DINO.write_to (d : DINOFile) : Option (List Nat) :=
  match DINO.pack_hdrs d with
  | none => none
  | some hdrs => some (hdrs ++ (d.sectab.map Sec.data).flatten)

/-- Valid `Arch` enum byte values (`Arch(value)` raises otherwise). -/
def archValues : List Nat :=
  [0, 2, 3, 8, 20, 21, 22, 40, 41, 42, 43, 50, 51, 62, 167, 183, 243]

/-- Valid `ObjectType` values. -/
def objtypeValues : List Nat := [0, 1, 2, 3, 4, 5]

/-- Valid `CompressionID` values. -/
def compressionValues : List Nat := [0, 1, 2, 3, 4, 5, 6]

/-- `DINO.read_dhdr` on the first bytes of a file: `Dhdrp.LE.parse_bytes`
unpacks the 16 header bytes and runs each field's `parse_val` in order.
The `magic` field has no `type` and `choices = (MAGIC_V0,)`, so the raw
4-byte value is compared against the *integer* `MAGIC_V0`; a `bytes` object
never equals an int, so `ValueError("... not valid for magic")` is raised
before any later field is looked at.  (`HeaderEncoding` is an `IntFlag` and
accepts any byte; the other enums reject unknown values.) -/
def DINO.read_dhdr (bs : List Nat) : Option (Nat × Nat × Nat × Nat) :=
  if bs.length < 16 then none
  else
    let magic : PyVal := .bytes (bs.take 4)
    if magic ∈ [PyVal.int MAGIC_V0] then
      let version := bs.getD 4 0
      let arch := bs.getD 5 0
      let encoding := bs.getD 6 0
      let objtype := bs.getD 7 0
      let compression_id := bs.getD 8 0
      if version = 0 ∧ arch ∈ archValues ∧ objtype ∈ objtypeValues ∧
          compression_id ∈ compressionValues then
        some (arch, encoding, objtype, compression_id)
      else none
    else none

/-- **C1** (the code bug, evaluated): the round trip fails on *every*
container and *every* input.  `DINO.write_to` always raises `struct.error`
— `pack_dhdr` passes the integer magic `0xedabeef0` for the `'4s'` field —
and `DINO.from_file` always raises `ValueError` at its first step
(`read_hdrs` → `read_dhdr`), because the parsed 4-byte magic is compared
against that integer. -/
theorem dino_write_read_always_fail :
    (∀ d : DINOFile, DINO.write_to d = none) ∧
    (∀ bs : List Nat, DINO.read_dhdr bs = none) := by
  constructor
  · intro d
    rfl
  · intro bs
    rw [DINO.read_dhdr]
    by_cases h : bs.length < 16
    · rw [if_pos h]
    · rw [if_neg h]
      have hmag : (PyVal.bytes (bs.take 4)) ∉ [PyVal.int MAGIC_V0] := by simp
      simp only [if_neg hmag]

end Dino
